import Mathlib

/-!
Verification of the JSON Pro editor (src/json_editor_pro.py).

The development shallowly embeds the program's logic:
* `JSONValue` models the in-memory JSON values produced by Python's
  `json.loads` (numbers restricted to integers; the editor's logic never
  depends on float-specific behaviour).
* `serMin` / `serFmt` model `json.dumps(data, separators=(',',':'),
  ensure_ascii=False)` and `json.dumps(data, indent=2, ensure_ascii=False)`.
* `parseText` models `json.loads` on the integer fragment of JSON
  (a text containing a fraction or exponent part is outside the model's
  domain; `json.loads` whitespace and duplicate-key handling are modelled
  faithfully: later duplicate keys overwrite in place).
-/

namespace JSONPro

/-- JSON values as produced by `json.loads`: objects keep Python's `dict`
insertion order, numbers are modelled as integers. -/
inductive JSONValue where
  | null : JSONValue
  | bool (b : Bool) : JSONValue
  | num (n : Int) : JSONValue
  | str (s : String) : JSONValue
  | arr (elems : List JSONValue) : JSONValue
  | obj (entries : List (String × JSONValue)) : JSONValue

mutual

/-- Structural equality test for JSON values. -/
def beqVal : JSONValue → JSONValue → Bool
  | .null, .null => true
  | .bool a, .bool b => a == b
  | .num a, .num b => a == b
  | .str a, .str b => a == b
  | .arr a, .arr b => beqElems a b
  | .obj a, .obj b => beqMembers a b
  | _, _ => false

/-- Structural equality test for element lists. -/
def beqElems : List JSONValue → List JSONValue → Bool
  | [], [] => true
  | a :: as', b :: bs' => beqVal a b && beqElems as' bs'
  | _, _ => false

/-- Structural equality test for member lists. -/
def beqMembers : List (String × JSONValue) → List (String × JSONValue) → Bool
  | [], [] => true
  | (ka, va) :: as', (kb, vb) :: bs' => ka == kb && beqVal va vb && beqMembers as' bs'
  | _, _ => false

end

/-- Is the value a container (`dict` or `list`)?  Mirrors
`isinstance(value, (dict, list))`. -/
def JSONValue.isContainer : JSONValue → Bool
  | .arr _ => true
  | .obj _ => true
  | _ => false

/-! ### Decimal rendering of integers (Python `str(int)` / `json.dumps`) -/

/-- The character for a decimal digit. -/
def digitChar (n : Nat) : Char := Char.ofNat (48 + n)

/-- Decimal digits of a natural number, most significant first
(accumulator form, with enough fuel to process every digit). -/
def natDigitsAux : Nat → Nat → List Char → List Char
  | 0, _, acc => acc
  | fuel + 1, n, acc =>
    if n < 10 then digitChar n :: acc
    else natDigitsAux fuel (n / 10) (digitChar (n % 10) :: acc)

/-- Decimal digits of a natural number, most significant first. -/
def natDigits (n : Nat) : List Char := natDigitsAux (n + 1) n []

/-- Decimal rendering of an integer, as Python's `str`/`json.dumps`. -/
def intRepr (n : Int) : List Char :=
  if n < 0 then '-' :: natDigits n.natAbs else natDigits n.natAbs

/-! ### String escaping (`json.dumps` with `ensure_ascii=False`) -/

/-- Lower-case hexadecimal digit. -/
def hexChar (n : Nat) : Char :=
  if n < 10 then Char.ofNat (48 + n) else Char.ofNat (87 + n)

/-- Escape of a single character, as `json.dumps(..., ensure_ascii=False)`:
`"`, `\` and the named control characters get two-character escapes, the
remaining control characters below `0x20` get `\u00xx`, everything else is
emitted verbatim. -/
def escChar (c : Char) : List Char :=
  if c = '"' then ['\\', '"']
  else if c = '\\' then ['\\', '\\']
  else if c = '\n' then ['\\', 'n']
  else if c = '\t' then ['\\', 't']
  else if c = '\r' then ['\\', 'r']
  else if c = Char.ofNat 8 then ['\\', 'b']
  else if c = Char.ofNat 12 then ['\\', 'f']
  else if c.toNat < 32 then
    ['\\', 'u', '0', '0', hexChar (c.toNat / 16), hexChar (c.toNat % 16)]
  else [c]

/-- Escape of a character sequence. -/
def escList : List Char → List Char
  | [] => []
  | c :: cs => escChar c ++ escList cs

/-! ### Serializers -/

mutual

/-- `json.dumps(v, separators=(',', ':'), ensure_ascii=False)` — the
Minify serialization (src/json_editor_pro.py line 926). -/
def serMin : JSONValue → List Char
  | .null => 'n' :: ['u', 'l', 'l']
  | .bool true => 't' :: ['r', 'u', 'e']
  | .bool false => 'f' :: ['a', 'l', 's', 'e']
  | .num n => intRepr n
  | .str s => '"' :: (escList s.data ++ ['"'])
  | .arr [] => ['[', ']']
  | .arr (e :: es) => '[' :: (serMin e ++ serMinArrRest es ++ [']'])
  | .obj [] => ['{', '}']
  | .obj (m :: ms) => '{' :: (serMinMember m ++ serMinObjRest ms ++ ['}'])

/-- Remaining array elements, each preceded by the `,` item separator. -/
def serMinArrRest : List JSONValue → List Char
  | [] => []
  | e :: es => ',' :: (serMin e ++ serMinArrRest es)

/-- One `"key":value` object member. -/
def serMinMember : String × JSONValue → List Char
  | (k, v) => '"' :: (escList k.data ++ '"' :: ':' :: serMin v)

/-- Remaining object members, each preceded by the `,` item separator. -/
def serMinObjRest : List (String × JSONValue) → List Char
  | [] => []
  | m :: ms => ',' :: (serMinMember m ++ serMinObjRest ms)

end

/-- `'\n'` followed by the indentation of nesting level `l`
(`indent=2`, so `2*l` spaces). -/
def nlIndent (l : Nat) : List Char := '\n' :: List.replicate (2 * l) ' '

mutual

/-- `json.dumps(v, indent=2, ensure_ascii=False)` — the Format
serialization (src/json_editor_pro.py line 906), at nesting level `l`
(the document root is level 0).  With `indent` given, `json.dumps` uses
item separator `,` and key separator `: `, puts every item on its own
indented line, and renders empty containers as `[]` / `{}`. -/
def serFmt : JSONValue → Nat → List Char
  | .null, _ => 'n' :: ['u', 'l', 'l']
  | .bool true, _ => 't' :: ['r', 'u', 'e']
  | .bool false, _ => 'f' :: ['a', 'l', 's', 'e']
  | .num n, _ => intRepr n
  | .str s, _ => '"' :: (escList s.data ++ ['"'])
  | .arr [], _ => ['[', ']']
  | .arr (e :: es), l =>
      '[' :: (nlIndent (l + 1) ++ serFmt e (l + 1) ++ serFmtArrRest es (l + 1)
        ++ nlIndent l ++ [']'])
  | .obj [], _ => ['{', '}']
  | .obj (m :: ms), l =>
      '{' :: (nlIndent (l + 1) ++ serFmtMember m (l + 1) ++ serFmtObjRest ms (l + 1)
        ++ nlIndent l ++ ['}'])

/-- Remaining array elements: `,` then newline+indent then the element. -/
def serFmtArrRest : List JSONValue → Nat → List Char
  | [], _ => []
  | e :: es, l => ',' :: (nlIndent l ++ serFmt e l ++ serFmtArrRest es l)

/-- One `"key": value` object member at level `l`. -/
def serFmtMember : String × JSONValue → Nat → List Char
  | (k, v), l => '"' :: (escList k.data ++ '"' :: ':' :: ' ' :: serFmt v l)

/-- Remaining object members: `,` then newline+indent then the member. -/
def serFmtObjRest : List (String × JSONValue) → Nat → List Char
  | [], _ => []
  | m :: ms, l => ',' :: (nlIndent l ++ serFmtMember m l ++ serFmtObjRest ms l)

end

/-! ### Parser (`json.loads`)

The scanner of CPython's `json` module, specialised to the integer
fragment: a number with a fraction or exponent part makes the enclosing
parse fail instead of producing a float (floating point is outside the
model).  Whitespace handling, the leading-zero rule, string escapes
(including surrogate pairs) and duplicate-key collapsing (last value
wins, first position kept — `dict(pairs)`) follow the library. -/

/-- JSON whitespace (the `_w` regex of the `json` module: space, tab,
newline, carriage return). -/
def isWS (c : Char) : Bool := c = ' ' || c = '\t' || c = '\n' || c = '\r'

/-- Skip JSON whitespace. -/
def skipWS (cs : List Char) : List Char := cs.dropWhile isWS

/-- ASCII decimal digit test (the `[0-9]` of the number grammar). -/
def isDigitC (c : Char) : Bool := 48 ≤ c.toNat && c.toNat ≤ 57

/-- Value of a run of decimal digits, with accumulator. -/
def digitsVal (a : Nat) : List Char → Nat
  | [] => a
  | c :: cs => digitsVal (10 * a + (c.toNat - 48)) cs

/-- The integer part of a JSON number: `0` or a nonzero digit followed by
digits (JSON forbids leading zeros, so after a leading `0` the scan
stops). -/
def parseNatPart : List Char → Option (Nat × List Char)
  | [] => none
  | c :: rest =>
    if c = '0' then some (0, rest)
    else if isDigitC c then
      some (digitsVal 0 ((c :: rest).takeWhile isDigitC),
        (c :: rest).dropWhile isDigitC)
    else none

/-- A JSON integer: optional minus sign and an integer part. -/
def parseNumber (cs : List Char) : Option (Int × List Char) :=
  if cs.head? = some '-' then
    (parseNatPart cs.tail).map fun p => (-(p.1 : Int), p.2)
  else
    (parseNatPart cs).map fun p => ((p.1 : Int), p.2)

/-- Value of one hexadecimal digit. -/
def hexVal (c : Char) : Option Nat :=
  if 48 ≤ c.toNat && c.toNat ≤ 57 then some (c.toNat - 48)
  else if 97 ≤ c.toNat && c.toNat ≤ 102 then some (c.toNat - 87)
  else if 65 ≤ c.toNat && c.toNat ≤ 70 then some (c.toNat - 55)
  else none

/-- Prepend a character to the string part of a parse result. -/
def consFirst (c : Char) : Option (List Char × List Char) → Option (List Char × List Char)
  | none => none
  | some (s, r) => some (c :: s, r)

mutual

/-- Body of a JSON string after the opening quote: returns the decoded
characters and the input after the closing quote.  Raw control
characters are rejected (`strict=True`). -/
def parseStringBody : List Char → Option (List Char × List Char)
  | [] => none
  | c :: rest =>
    if c = '"' then some ([], rest)
    else if c = '\\' then parseEscape rest
    else if c.toNat < 32 then none
    else consFirst c (parseStringBody rest)

/-- An escape sequence after a backslash. -/
def parseEscape : List Char → Option (List Char × List Char)
  | [] => none
  | e :: r =>
    if e = '"' then consFirst '"' (parseStringBody r)
    else if e = '\\' then consFirst '\\' (parseStringBody r)
    else if e = '/' then consFirst '/' (parseStringBody r)
    else if e = 'b' then consFirst (Char.ofNat 8) (parseStringBody r)
    else if e = 'f' then consFirst (Char.ofNat 12) (parseStringBody r)
    else if e = 'n' then consFirst '\n' (parseStringBody r)
    else if e = 'r' then consFirst '\r' (parseStringBody r)
    else if e = 't' then consFirst '\t' (parseStringBody r)
    else if e = 'u' then parseU r
    else none

/-- A `\uXXXX` escape.  A high surrogate must be followed by a low
surrogate (a lone surrogate is not representable as a character of the
model). -/
def parseU : List Char → Option (List Char × List Char)
  | h1 :: h2 :: h3 :: h4 :: r =>
    match hexVal h1, hexVal h2, hexVal h3, hexVal h4 with
    | some a, some b, some c, some d =>
      let n := 4096 * a + 256 * b + 16 * c + d
      if 55296 ≤ n ∧ n ≤ 56319 then parseLowSur n r
      else if 56320 ≤ n ∧ n ≤ 57343 then none
      else consFirst (Char.ofNat n) (parseStringBody r)
    | _, _, _, _ => none
  | _ => none

/-- The low-surrogate half of a `\uXXXX\uYYYY` pair. -/
def parseLowSur (n : Nat) : List Char → Option (List Char × List Char)
  | '\\' :: 'u' :: h1 :: h2 :: h3 :: h4 :: r =>
    match hexVal h1, hexVal h2, hexVal h3, hexVal h4 with
    | some a, some b, some c, some d =>
      let m := 4096 * a + 256 * b + 16 * c + d
      if 56320 ≤ m ∧ m ≤ 57343 then
        consFirst (Char.ofNat (65536 + (n - 55296) * 1024 + (m - 56320)))
          (parseStringBody r)
      else none
    | _, _, _, _ => none
  | _ => none

end

/-- `dict` insertion: an existing key keeps its position but gets the new
value, a new key is appended. -/
def insertEntry : List (String × JSONValue) → String → JSONValue →
    List (String × JSONValue)
  | [], k, v => [(k, v)]
  | (k0, v0) :: rest, k, v =>
    if k0 = k then (k0, v) :: rest else (k0, v0) :: insertEntry rest k v

/-- `dict(pairs)`: fold the parsed member list into a dict. -/
def collapseAux (acc : List (String × JSONValue)) :
    List (String × JSONValue) → List (String × JSONValue)
  | [] => acc
  | (k, v) :: rest => collapseAux (insertEntry acc k v) rest

mutual

/-- One JSON value.  Leading whitespace is skipped (every call site of
`scan_once` in the library pre-skips whitespace). -/
def parseVal : Nat → List Char → Option (JSONValue × List Char)
  | 0, _ => none
  | fuel + 1, cs =>
    match skipWS cs with
    | [] => none
    | c :: rest =>
      if c = 'n' then
        match rest with
        | 'u' :: 'l' :: 'l' :: r => some (.null, r)
        | _ => none
      else if c = 't' then
        match rest with
        | 'r' :: 'u' :: 'e' :: r => some (.bool true, r)
        | _ => none
      else if c = 'f' then
        match rest with
        | 'a' :: 'l' :: 's' :: 'e' :: r => some (.bool false, r)
        | _ => none
      else if c = '"' then
        (parseStringBody rest).map fun p => (.str (String.mk p.1), p.2)
      else if c = '[' then
        if (skipWS rest).head? = some ']' then some (.arr [], (skipWS rest).tail)
        else (parseElems fuel (skipWS rest)).map fun p => (.arr p.1, p.2)
      else if c = '{' then
        if (skipWS rest).head? = some '}' then some (.obj [], (skipWS rest).tail)
        else (parseMembers fuel (skipWS rest)).map
          fun p => (.obj (collapseAux [] p.1), p.2)
      else (parseNumber (c :: rest)).map fun p => (.num p.1, p.2)

/-- Elements of a non-empty array, and the closing `]`. -/
def parseElems : Nat → List Char → Option (List JSONValue × List Char)
  | 0, _ => none
  | fuel + 1, cs =>
    (parseVal fuel cs).bind fun vr =>
      if (skipWS vr.2).head? = some ',' then
        (parseElems fuel (skipWS vr.2).tail).map fun p => (vr.1 :: p.1, p.2)
      else if (skipWS vr.2).head? = some ']' then some ([vr.1], (skipWS vr.2).tail)
      else none

/-- Members of a non-empty object (raw pair list, collapsed by the
caller), and the closing `}`. -/
def parseMembers : Nat → List Char → Option (List (String × JSONValue) × List Char)
  | 0, _ => none
  | fuel + 1, cs =>
    if cs.head? = some '"' then
      (parseStringBody cs.tail).bind fun kr =>
        if (skipWS kr.2).head? = some ':' then
          (parseVal fuel (skipWS kr.2).tail).bind fun vr =>
            if (skipWS vr.2).head? = some ',' then
              (parseMembers fuel (skipWS (skipWS vr.2).tail)).map
                fun p => ((String.mk kr.1, vr.1) :: p.1, p.2)
            else if (skipWS vr.2).head? = some '}' then
              some ([(String.mk kr.1, vr.1)], (skipWS vr.2).tail)
            else none
        else none
    else none

end

/-- `json.loads` on a character list: parse one value, then require only
whitespace to remain. -/
def parseChars (cs : List Char) : Option JSONValue :=
  match parseVal (cs.length + 1) cs with
  | some (v, r) => if skipWS r = [] then some v else none
  | none => none

/-- `json.loads` on a string. -/
def parseText (s : String) : Option JSONValue := parseChars s.data

/-! ### Well-formedness: unique keys in every object

`json.loads` builds objects as Python dicts, so every object of a parsed
value has pairwise distinct keys. -/

/-- `k` does not occur in the list. -/
def strNotIn (k : String) : List String → Bool
  | [] => true
  | k0 :: rest => (k0 != k) && strNotIn k rest

/-- Pairwise distinct strings. -/
def nodupKeys : List String → Bool
  | [] => true
  | k :: rest => strNotIn k rest && nodupKeys rest

/-- Keys of a member list. -/
def keysOf (ms : List (String × JSONValue)) : List String := ms.map Prod.fst

mutual

/-- Every object of the value has pairwise distinct keys. -/
def wfVal : JSONValue → Bool
  | .arr es => wfElems es
  | .obj ms => nodupKeys (keysOf ms) && wfMembers ms
  | _ => true

/-- `wfVal` on every element. -/
def wfElems : List JSONValue → Bool
  | [] => true
  | e :: es => wfVal e && wfElems es

/-- `wfVal` on every member value. -/
def wfMembers : List (String × JSONValue) → Bool
  | [] => true
  | m :: ms => wfVal m.2 && wfMembers ms

end

/-! ### Fuel bound for the parser -/

mutual

/-- Recursion depth the parser needs for a serialization of `v`. -/
def pfuel : JSONValue → Nat
  | .arr [] => 1
  | .arr (e :: es) => 2 + pfuel e + pfuelElems es
  | .obj [] => 1
  | .obj (m :: ms) => 2 + pfuel m.2 + pfuelMems ms
  | _ => 1

/-- Fuel needed by `parseElems` for the remaining elements. -/
def pfuelElems : List JSONValue → Nat
  | [] => 0
  | e :: es => 1 + pfuel e + pfuelElems es

/-- Fuel needed by `parseMembers` for the remaining members. -/
def pfuelMems : List (String × JSONValue) → Nat
  | [] => 0
  | m :: ms => 1 + pfuel m.2 + pfuelMems ms

end

/-- The continuation after a serialized number must not begin with a
digit (otherwise the digit scan would run into it). -/
def noLeadDigit (rest : List Char) : Prop :=
  ∀ c, rest.head? = some c → isDigitC c = false

/-- Characters that are all JSON whitespace. -/
def wsOnly (ws : List Char) : Prop := ∀ c ∈ ws, isWS c = true

/-! ### Settings store (`load_settings`, src/json_editor_pro.py lines 18-26) -/

/-- `load_settings`: an absent file, or one whose contents fail to parse
(the bare `except: pass`), falls back to the empty object; otherwise the
parsed value is returned unchanged. -/
def loadSettings (fileContent : Option String) : JSONValue :=
  match fileContent with
  | none => .obj []
  | some txt =>
    match parseText txt with
    | some v => v
    | none => .obj []

/-! ### Toolbar commands (format/minify/validate/save)

Each command is modelled by its effect on the buffer (and for Save, the
file at the tab's path), together with whether an error dialog was
shown.  The `try`/`except json.JSONDecodeError` structure of
`format_json`, `minify_json`, `validate_json` and `save_file` means the
whole effect happens only after `json.loads` succeeds. -/

/-- `format_json` (lines 897-915): parse, re-serialize with two-space
indent, replace the buffer; on parse failure show the error dialog and
leave the buffer alone.  Returns (new buffer, error-dialog shown). -/
def formatCmd (buf : String) : String × Bool :=
  match parseText buf with
  | some v => (String.mk (serFmt v 0), false)
  | none => (buf, true)

/-- `minify_json` (lines 917-935): like `formatCmd` with the compact
separators. -/
def minifyCmd (buf : String) : String × Bool :=
  match parseText buf with
  | some v => (String.mk (serMin v), false)
  | none => (buf, true)

/-- `validate_json` (lines 937-953): parse only; the buffer is never
written.  Returns (buffer, error-dialog shown). -/
def validateCmd (buf : String) : String × Bool :=
  match parseText buf with
  | some _ => (buf, false)
  | none => (buf, true)

/-- `save_file` (lines 840-879) for a tab with a known path: validate
first, write the buffer text verbatim only on success.  Returns
(file contents after the command, error-dialog shown). -/
def saveCmd (buf : String) (fileBefore : Option String) : Option String × Bool :=
  match parseText buf with
  | some _ => (some buf, false)
  | none => (fileBefore, true)

/-! ### Tab manager (`create_new_tab` / `close_tab`) -/

/-- The tab-manager state: the ids of the open tabs (`self.tabs` keys)
and the running counter (`self.tab_counter`). -/
structure TabState where
  openTabs : List Nat
  tabCounter : Nat
deriving DecidableEq

/-- A tab operation: `create_new_tab`, or `close_tab tabId confirm` where
`confirm` is the user's answer to the unsaved-changes prompt (closing an
unmodified tab passes trivially). -/
inductive TabOp where
  | newTab : TabOp
  | closeTab (tabId : Nat) (confirm : Bool) : TabOp
deriving DecidableEq

/-- The state at start-up. -/
def initialTabs : TabState := ⟨[], 0⟩

/-- One operation: `create_new_tab` increments the counter and uses it as
the new id; `close_tab` removes the tab (when present and confirmed) and
never touches the counter.  Also returns the id assigned, if any. -/
def applyTabOp : TabState → TabOp → TabState × Option Nat
  | st, .newTab =>
    (⟨st.openTabs ++ [st.tabCounter + 1], st.tabCounter + 1⟩, some (st.tabCounter + 1))
  | st, .closeTab tid confirm =>
    if tid ∈ st.openTabs ∧ confirm then
      (⟨st.openTabs.erase tid, st.tabCounter⟩, none)
    else (st, none)

/-- Run a session: the final state and the ids assigned, in order. -/
def runTabOps : TabState → List TabOp → TabState × List Nat
  | st, [] => (st, [])
  | st, op :: ops =>
    ((runTabOps (applyTabOp st op).1 ops).1,
      (applyTabOp st op).2.toList ++ (runTabOps (applyTabOp st op).1 ops).2)

/-! ### Tree builder (`JSONTreeView._add_node`, lines 133-180) -/

/-- A logical path segment: an object key or a zero-based array index. -/
inductive Seg where
  | key (s : String) : Seg
  | idx (n : Nat) : Seg
deriving DecidableEq

/-- One emitted tree row: its display text, the recorded logical path
(`values=(new_path,)`), and the style tag. -/
structure NodeRec where
  label : String
  path : String
  tag : String
deriving DecidableEq

/-- The folder marker prefix of container rows (a folder emoji and a
space in the source). -/
def folderMark : String := String.mk [Char.ofNat 128193, ' ']

/-- `str(i)` for an array index. -/
def natStr (i : Nat) : String := String.mk (natDigits i)

/-- Python `str(value)` for the scalar values the tree shows
(`_add_node` calls `str` only on non-container values, so the container
cases are unreachable). -/
def pyStr : JSONValue → String
  | .null => "None"
  | .bool true => "True"
  | .bool false => "False"
  | .num n => String.mk (intRepr n)
  | .str s => s
  | .arr _ => ""
  | .obj _ => ""

/-- `value_str[:50] + "..."` when longer than 50 characters. -/
def truncLabel (s : String) : String :=
  if s.length > 50 then String.mk (s.data.take 50) ++ "..." else s

/-- `new_path = f"{path}.{key}" if path else key`. -/
def pathJoin (path key : String) : String :=
  if path = "" then key else path ++ "." ++ key

/-- `new_path = f"{path}[{i}]"`. -/
def pathIdx (path : String) (i : Nat) : String :=
  path ++ "[" ++ natStr i ++ "]"

/-- The tag of a leaf row: blue at nesting level 0, green below. -/
def leafTag (level : Nat) : String :=
  if level = 0 then "value_blue" else "value_green"

mutual

/-- `_add_node(parent, data, level, path)`: the rows inserted under one
node, in insertion (depth-first) order.  Scalars at the root insert
nothing. -/
def addNode : JSONValue → Nat → String → List NodeRec
  | .obj ms, level, path => addNodeMembers ms level path
  | .arr es, level, path => addNodeElems es 0 level path
  | _, _, _ => []

/-- The dict branch of `_add_node`: one row per key, recursing into
container values. -/
def addNodeMembers : List (String × JSONValue) → Nat → String → List NodeRec
  | [], _, _ => []
  | (key, value) :: rest, level, path =>
    if value.isContainer then
      ⟨folderMark ++ key, pathJoin path key, "key"⟩
        :: (addNode value (level + 1) (pathJoin path key)
          ++ addNodeMembers rest level path)
    else
      ⟨key ++ "  :  " ++ truncLabel (pyStr value), pathJoin path key, leafTag level⟩
        :: addNodeMembers rest level path

/-- The list branch of `_add_node`: one row per index `i`, recursing
into container elements. -/
def addNodeElems : List JSONValue → Nat → Nat → String → List NodeRec
  | [], _, _, _ => []
  | item :: rest, i, level, path =>
    if item.isContainer then
      ⟨folderMark ++ "[" ++ natStr i ++ "]", pathIdx path i, "key"⟩
        :: (addNode item (level + 1) (pathIdx path i)
          ++ addNodeElems rest (i + 1) level path)
    else
      ⟨"[" ++ natStr i ++ "]" ++ "  :  " ++ truncLabel (pyStr item),
          pathIdx path i, leafTag level⟩
        :: addNodeElems rest (i + 1) level path

end

/-! ### Path parsing (`JSONTab._parse_path`, lines 398-431) -/

/-- Python `int()` on the text between brackets, for the canonical digit
strings the tree paths contain; anything else raises (modelled as
`none`). -/
def pyInt (cs : List Char) : Option Nat :=
  if cs ≠ [] ∧ cs.all isDigitC then some (digitsVal 0 cs) else none

/-- Flush the accumulated key characters (`if current: parts.append(current)`). -/
def flushKey (current : List Char) : List Seg :=
  if current = [] then [] else [.key (String.mk current)]

/-- The character loop of `_parse_path`: `.` flushes the current key,
`[` flushes and reads an integer index up to the closing bracket (or the
end of the string), any other character extends the current key.  Every
step consumes at least one character, so fuel equal to the input length
never runs out. -/
def parsePathAux : Nat → List Char → List Char → List Seg → Option (List Seg)
  | _, [], current, acc => some (acc ++ flushKey current)
  | 0, _ :: _, _, _ => none
  | fuel + 1, c :: rest, current, acc =>
    if c = '.' then parsePathAux fuel rest [] (acc ++ flushKey current)
    else if c = '[' then
      match pyInt (rest.takeWhile (fun d => d ≠ ']')) with
      | none => none
      | some i =>
        parsePathAux fuel ((rest.drop (rest.takeWhile (fun d => d ≠ ']')).length).drop 1)
          [] ((acc ++ flushKey current) ++ [.idx i])
    else parsePathAux fuel rest (current ++ [c]) acc

/-- `_parse_path`. -/
def parsePath (path : String) : Option (List Seg) :=
  if path = "" then some [] else parsePathAux path.data.length path.data [] []

/-! ### Occurrence traversal (`JSONTab._find_path_occurrence`, lines 486-539) -/

mutual

/-- `traverse(obj, current_path)` with the mutable `count`/`found_index`
pair made explicit: returns the updated count and the found index, if
any.  Once an index is found the traversal stops. -/
def travVal (tkey : String) (tpath : List Seg) :
    JSONValue → List Seg → Nat → Nat × Option Nat
  | .obj ms, cur, cnt => travMembers tkey tpath ms cur cnt
  | .arr es, cur, cnt => travElems tkey tpath es 0 cur cnt
  | _, _, cnt => (cnt, none)

/-- The dict loop: check the key (before recursing), then recurse into
container values, then continue with the remaining items. -/
def travMembers (tkey : String) (tpath : List Seg) :
    List (String × JSONValue) → List Seg → Nat → Nat × Option Nat
  | [], _, cnt => (cnt, none)
  | (k, value) :: rest, cur, cnt =>
    if k = tkey ∧ cur ++ [Seg.key k] = tpath then (cnt, some cnt)
    else
      match (if value.isContainer then
          travVal tkey tpath value (cur ++ [Seg.key k])
            (if k = tkey then cnt + 1 else cnt)
        else ((if k = tkey then cnt + 1 else cnt), none)) with
      | (cnt2, some i) => (cnt2, some i)
      | (cnt2, none) => travMembers tkey tpath rest cur cnt2

/-- The list loop: recurse into container elements in index order. -/
def travElems (tkey : String) (tpath : List Seg) :
    List JSONValue → Nat → List Seg → Nat → Nat × Option Nat
  | [], _, _, cnt => (cnt, none)
  | item :: rest, i, cur, cnt =>
    match (if item.isContainer then
        travVal tkey tpath item (cur ++ [Seg.idx i]) cnt
      else (cnt, none)) with
    | (cnt2, some j) => (cnt2, some j)
    | (cnt2, none) => travElems tkey tpath rest (i + 1) cur cnt2

end

/-- `_find_path_occurrence(content, target_path)`: any failure (parse
error, malformed path, empty path, integer target) and a fruitless
traversal all yield 0. -/
def findPathOccurrence (content targetPath : String) : Nat :=
  match parseText content with
  | none => 0
  | some data =>
    match parsePath targetPath with
    | none => 0
    | some parts =>
      match parts.getLast? with
      | none => 0
      | some (.idx _) => 0
      | some (.key tkey) =>
        match travVal tkey parts data [] 0 with
        | (_, some i) => i
        | (_, none) => 0

/-! ### Text scan (`JSONTab._find_key_position_by_path`, lines 433-484) -/

/-- The ASCII fragment of the `\s` class of Python's `re` module. -/
def pyReSpace (c : Char) : Bool :=
  c = ' ' || c = '\t' || c = '\n' || c = '\r' || c = Char.ofNat 11 || c = Char.ofNat 12

/-- Match of the regex `"([^"]+)"\s*:` anchored at the head of the list:
the captured key and the length of the whole match. -/
def matchKeyAt : List Char → Option (String × Nat)
  | [] => none
  | c :: rest =>
    if c = '"' then
      if rest.takeWhile (fun d => d ≠ '"') = [] then none
      else
        match rest.drop (rest.takeWhile (fun d => d ≠ '"')).length with
        | '"' :: rest2 =>
          match rest2.drop (rest2.takeWhile pyReSpace).length with
          | ':' :: _ =>
            some (String.mk (rest.takeWhile (fun d => d ≠ '"')),
              (rest.takeWhile (fun d => d ≠ '"')).length
                + (rest2.takeWhile pyReSpace).length + 3)
          | _ => none
        | _ => none
    else none

/-- `re.finditer` over one line: left-to-right, non-overlapping matches,
each reported with the column of its opening quote. -/
def scanLineAux : Nat → List Char → Nat → List (String × Nat)
  | 0, _, _ => []
  | _, [], _ => []
  | fuel + 1, c :: rest, col =>
    match matchKeyAt (c :: rest) with
    | some (k, len) => (k, col) :: scanLineAux fuel ((c :: rest).drop len) (col + len)
    | none => scanLineAux fuel rest (col + 1)

/-- All matches of the quoted-key regex in one line. -/
def scanLine (cs : List Char) : List (String × Nat) := scanLineAux cs.length cs 0

/-- `content.split('\n')`. -/
def splitNL : List Char → List (List Char)
  | [] => [[]]
  | c :: rest =>
    if c = '\n' then [] :: splitNL rest
    else
      match splitNL rest with
      | l :: ls => (c :: l) :: ls
      | [] => [[c]]

/-- The `key_positions` list: for every line (1-based), the matches whose
captured key equals the target, as (line, column) pairs. -/
def keyPositionsAux : List (List Char) → Nat → String → List (Nat × Nat)
  | [], _, _ => []
  | line :: rest, lineNum, tkey =>
    ((scanLine line).filter (fun p => p.1 = tkey)).map (fun p => (lineNum, p.2))
      ++ keyPositionsAux rest (lineNum + 1) tkey

/-- All textual occurrences of the target key across the document. -/
def keyPositionsList (content : String) (tkey : String) : List (Nat × Nat) :=
  keyPositionsAux (splitNL content.data) 1 tkey

/-- `_find_key_position_by_path(content, target_path)`: the returned
span is a pair of (line, column) positions, the end column two past the
key for the surrounding quotes.  An array-index target, an empty or
malformed path, or an occurrence index beyond the collected positions
give `none`. -/
def findKeyPositionByPath (content targetPath : String) :
    Option ((Nat × Nat) × (Nat × Nat)) :=
  match parsePath targetPath with
  | none => none
  | some [] => none
  | some (p :: ps) =>
    match (p :: ps).getLast? with
    | none => none
    | some (.idx _) => none
    | some (.key tkey) =>
      match (keyPositionsList content tkey).get? (findPathOccurrence content targetPath) with
      | some pos => some ((pos.1, pos.2), (pos.1, pos.2 + tkey.length + 2))
      | none => none

/-! ### Syntax highlighter string pass (`JSONTab.highlight_syntax`,
lines 264-281) -/

/-- The ASCII fragment of Python `str.strip` whitespace. -/
def pyStrSpace (c : Char) : Bool :=
  c = ' ' || c = '\t' || c = '\n' || c = '\r' || c = Char.ofNat 11 || c = Char.ofNat 12

/-- `char_after.strip().startswith(':')` where `char_after` is the single
character after the closing quote (or nothing at the end of the text):
strip a whitespace character to the empty string, then test whether the
first character is a colon. -/
def keyTagOfNext (after : Option Char) : Bool :=
  match after with
  | none => false
  | some c => (if pyStrSpace c then ([] : List Char) else [c]).head? = some ':'

/-- The paired-quote scan of `highlight_syntax`: repeatedly find the
next `"`, then the closing `"`, classify by the single following
character, and resume after the closing quote.  Spans are
(start, end) positions of the two quotes, and `true` means the span was
tagged `key` rather than `string`.  Each round consumes at least two
characters, so fuel equal to the text length never runs out. -/
def scanSpansAux : Nat → List Char → List (Nat × Nat × Bool)
  | 0, _ => []
  | fuel + 1, cs =>
    match cs.findIdx? (fun c => c = '"') with
    | none => []
    | some p =>
      match (cs.drop (p + 1)).findIdx? (fun c => c = '"') with
      | none => []
      | some q =>
        (p, p + 1 + q, keyTagOfNext ((cs.drop (p + 1)).drop (q + 1)).head?)
          :: (scanSpansAux fuel ((cs.drop (p + 1)).drop (q + 1))).map
            (fun t => (t.1 + (p + q + 2), t.2.1 + (p + q + 2), t.2.2))

/-- The full string pass of `highlight_syntax`. -/
def scanSpans (cs : List Char) : List (Nat × Nat × Bool) :=
  scanSpansAux cs.length cs

/-! ### Specification-side helpers -/

mutual

/-- All positions inside a value: each reachable object key or array
index, with its display segment, the segment path from the root of the
value, and the sub-value there, in the builder's depth-first order. -/
def posAnn : JSONValue → List (Seg × List Seg × JSONValue)
  | .obj ms => posAnnMembers ms
  | .arr es => posAnnElems es 0
  | _ => []

/-- Positions contributed by the members of an object. -/
def posAnnMembers : List (String × JSONValue) → List (Seg × List Seg × JSONValue)
  | [] => []
  | (k, v) :: rest =>
    (Seg.key k, [Seg.key k], v)
      :: ((posAnn v).map (fun t => (t.1, Seg.key k :: t.2.1, t.2.2))
        ++ posAnnMembers rest)

/-- Positions contributed by the elements of an array, starting at
index `i`. -/
def posAnnElems : List JSONValue → Nat → List (Seg × List Seg × JSONValue)
  | [], _ => []
  | item :: rest, i =>
    (Seg.idx i, [Seg.idx i], item)
      :: ((posAnn item).map (fun t => (t.1, Seg.idx i :: t.2.1, t.2.2))
        ++ posAnnElems rest (i + 1))

end

/-- Render one segment onto an accumulated path string, exactly as the
builder does. -/
def renderSeg (path : String) : Seg → String
  | .key k => pathJoin path k
  | .idx i => pathIdx path i

/-- Render a segment list onto an accumulated path string. -/
def renderFrom (path : String) : List Seg → String
  | [] => path
  | s :: rest => renderFrom (renderSeg path s) rest

/-- The display text of a segment (`key` or `[i]`). -/
def segText : Seg → String
  | .key k => k
  | .idx i => "[" ++ natStr i ++ "]"

/-- The row the builder emits for one annotated position, given the
level and path prefix of the enclosing call. -/
def mkNode (level : Nat) (path : String) :
    Seg × List Seg × JSONValue → NodeRec
  | (ls, segs, u) =>
    if u.isContainer then ⟨folderMark ++ segText ls, renderFrom path segs, "key"⟩
    else ⟨segText ls ++ "  :  " ++ truncLabel (pyStr u), renderFrom path segs,
      leafTag (level + (segs.length - 1))⟩

/-- First value bound to a key in a member list. -/
def lookupKey : List (String × JSONValue) → String → Option JSONValue
  | [], _ => none
  | (k, v) :: rest, key => if k = key then some v else lookupKey rest key

/-- Spec-side navigation: follow a segment path from the root of a
value. -/
def valueAt : JSONValue → List Seg → Option JSONValue
  | v, [] => some v
  | v, s :: rest =>
    match v, s with
    | .obj ms, .key k =>
      match lookupKey ms k with
      | some u => valueAt u rest
      | none => none
    | .arr es, .idx i =>
      match es.get? i with
      | some u => valueAt u rest
      | none => none
    | _, _ => none

/-- A key string safe for path round-tripping: non-empty and free of the
separator characters. -/
def goodKey (k : String) : Bool :=
  k.data ≠ [] && k.data.all (fun c => c ≠ '.' && c ≠ '[' && c ≠ ']')

/-- All key segments of a path are safe. -/
def goodSegs (segs : List Seg) : Bool :=
  segs.all (fun s => match s with | .key k => goodKey k | .idx _ => true)

/-- The characters a tail segment list contributes to a rendered path: a
key is preceded by a dot, an index is wrapped in brackets. -/
def sufRender : List Seg → List Char
  | [] => []
  | .key k :: rest => '.' :: (k.data ++ sufRender rest)
  | .idx i :: rest => '[' :: (natDigits i ++ (']' :: sufRender rest))

mutual

/-- The depth-first list of dictionary-key events: each object key
reachable in the value, with its accumulated path, keys checked before
recursing into their values, arrays traversed element by element. -/
def dfsKeys : JSONValue → List Seg → List (List Seg × String)
  | .obj ms, cur => dfsKeysMembers ms cur
  | .arr es, cur => dfsKeysElems es 0 cur
  | _, _ => []

/-- Key events of an object's members. -/
def dfsKeysMembers : List (String × JSONValue) → List Seg → List (List Seg × String)
  | [], _ => []
  | (k, v) :: rest, cur =>
    (cur ++ [Seg.key k], k)
      :: ((if v.isContainer then dfsKeys v (cur ++ [Seg.key k]) else [])
        ++ dfsKeysMembers rest cur)

/-- Key events of an array's elements. -/
def dfsKeysElems : List JSONValue → Nat → List Seg → List (List Seg × String)
  | [], _, _ => []
  | item :: rest, i, cur =>
    (if item.isContainer then dfsKeys item (cur ++ [Seg.idx i]) else [])
      ++ dfsKeysElems rest (i + 1) cur

end

/-- The number of events for key `tkey` in an event list. -/
def countKey (tkey : String) (l : List (List Seg × String)) : Nat :=
  (l.filter (fun e => e.2 = tkey)).length

/-- Reference form of the occurrence traversal: walk the flat event list
in order, stopping at the first event whose path is the target and
counting the same-named keys seen on the way. -/
def specTrav (tkey : String) (tpath : List Seg) :
    List (List Seg × String) → Nat → Nat × Option Nat
  | [], cnt => (cnt, none)
  | e :: rest, cnt =>
    if e.1 = tpath then (cnt, some cnt)
    else specTrav tkey tpath rest (if e.2 = tkey then cnt + 1 else cnt)

mutual

theorem beqVal_iff : ∀ a b : JSONValue, beqVal a b = true ↔ a = b
  | a, b => by
    cases a <;> cases b <;> simp [beqVal] <;>
      first
        | exact beqElems_iff _ _
        | exact beqMembers_iff _ _

theorem beqElems_iff : ∀ a b : List JSONValue, beqElems a b = true ↔ a = b
  | [], [] => by simp [beqElems]
  | [], _ :: _ => by simp [beqElems]
  | _ :: _, [] => by simp [beqElems]
  | a :: as', b :: bs' => by
    simp only [beqElems, Bool.and_eq_true, List.cons.injEq]
    exact and_congr (beqVal_iff a b) (beqElems_iff as' bs')

theorem beqMembers_iff :
    ∀ a b : List (String × JSONValue), beqMembers a b = true ↔ a = b
  | [], [] => by simp [beqMembers]
  | [], _ :: _ => by simp [beqMembers]
  | _ :: _, [] => by simp [beqMembers]
  | (ka, va) :: as', (kb, vb) :: bs' => by
    simp only [beqMembers, Bool.and_eq_true, List.cons.injEq, Prod.mk.injEq,
      beq_iff_eq, and_assoc]
    exact and_congr_right fun _ =>
      and_congr (beqVal_iff va vb) (beqMembers_iff as' bs')

end

instance : DecidableEq JSONValue := fun a b =>
  decidable_of_iff (beqVal a b = true) (beqVal_iff a b)

/-! ### Character and digit lemmas -/

theorem toNat_ofNat_valid {n : Nat} (h : n.isValidChar) : (Char.ofNat n).toNat = n := by
  rw [Char.ofNat, dif_pos h]
  rfl

theorem toNat_ofNat_lt {n : Nat} (h : n < 55296) : (Char.ofNat n).toNat = n :=
  toNat_ofNat_valid (Or.inl h)

theorem digitChar_toNat {d : Nat} (h : d < 10) : (digitChar d).toNat = 48 + d :=
  toNat_ofNat_lt (by omega)

theorem isDigitC_digitChar {d : Nat} (h : d < 10) : isDigitC (digitChar d) = true := by
  simp only [isDigitC, digitChar_toNat h, Bool.and_eq_true, decide_eq_true_eq]
  omega

theorem char_eq_of_toNat {c d : Char} (h : c.toNat = d.toNat) : c = d :=
  Char.ext (UInt32.ext h)

theorem isWS_false_of_digit {c : Char} (h : isDigitC c = true) : isWS c = false := by
  simp only [isDigitC, Bool.and_eq_true, decide_eq_true_eq] at h
  simp only [isWS, Bool.or_eq_false_iff, decide_eq_false_iff_not]
  refine ⟨⟨⟨?_, ?_⟩, ?_⟩, ?_⟩ <;> rintro rfl <;> exact absurd h (by decide)

theorem skipWS_cons_not_ws {c : Char} (h : isWS c = false) (xs : List Char) :
    skipWS (c :: xs) = c :: xs := by
  simp [skipWS, List.dropWhile_cons, h]

theorem skipWS_append_ws {ws : List Char} (h : wsOnly ws) (xs : List Char) :
    skipWS (ws ++ xs) = skipWS xs := by
  induction ws with
  | nil => rfl
  | cons c t ih =>
    have hc : isWS c = true := h c (by simp)
    simp only [List.cons_append, skipWS, List.dropWhile_cons, hc, if_true]
    exact ih fun d hd => h d (by simp [hd])

theorem wsOnly_nlIndent (l : Nat) : wsOnly (nlIndent l) := by
  intro c hc
  simp only [nlIndent, List.mem_cons, List.mem_replicate] at hc
  rcases hc with rfl | ⟨-, rfl⟩ <;> rfl

theorem noLeadDigit_cons {c : Char} (h : isDigitC c = false) (r : List Char) :
    noLeadDigit (c :: r) := by
  intro d hd
  simp only [List.head?_cons, Option.some.injEq] at hd
  exact hd ▸ h

theorem noLeadDigit_nil : noLeadDigit [] := by
  intro d hd
  simp at hd

theorem noLeadDigit_append_ws {ws : List Char} (h : wsOnly ws) :
    ∀ {r : List Char}, noLeadDigit r → noLeadDigit (ws ++ r) := by
  induction ws with
  | nil => exact fun hr => hr
  | cons c t ih =>
    intro r hr
    have hc : isWS c = true := h c (by simp)
    refine noLeadDigit_cons ?_ _
    cases hd : isDigitC c
    · rfl
    · rw [isWS_false_of_digit hd] at hc
      cases hc

/-! ### Decimal rendering round-trip -/

theorem natDigitsAux_succ (fuel n : Nat) (acc : List Char) :
    natDigitsAux (fuel + 1) n acc =
      if n < 10 then digitChar n :: acc
      else natDigitsAux fuel (n / 10) (digitChar (n % 10) :: acc) := rfl

theorem natDigitsAux_fuel :
    ∀ fuel n acc, n < fuel → natDigitsAux fuel n acc = natDigits n ++ acc := by
  intro fuel
  induction fuel using Nat.strong_induction_on with
  | _ fuel ih =>
    intro n acc h
    cases fuel with
    | zero => omega
    | succ f =>
      by_cases h10 : n < 10
      · rw [natDigitsAux_succ, if_pos h10, natDigits, natDigitsAux_succ, if_pos h10]
        rfl
      · have hdiv : n / 10 < n := Nat.div_lt_self (by omega) (by omega)
        rw [natDigitsAux_succ, if_neg h10, natDigits, natDigitsAux_succ, if_neg h10]
        rw [ih f (by omega) (n / 10) _ (by omega)]
        rw [ih n (by omega) (n / 10) _ (by omega)]
        simp

theorem natDigits_lt {n : Nat} (h : n < 10) : natDigits n = [digitChar n] := by
  rw [natDigits, natDigitsAux_succ, if_pos h]

theorem natDigits_ge {n : Nat} (h : ¬ n < 10) :
    natDigits n = natDigits (n / 10) ++ [digitChar (n % 10)] := by
  have hdiv : n / 10 < n := Nat.div_lt_self (by omega) (by omega)
  rw [natDigits, natDigitsAux_succ, if_neg h, natDigitsAux_fuel n (n / 10) _ hdiv]

theorem natDigits_all_digits (n : Nat) :
    ∀ c ∈ natDigits n, isDigitC c = true := by
  induction n using Nat.strong_induction_on with
  | _ n ih =>
    by_cases h : n < 10
    · rw [natDigits_lt h]
      intro c hc
      rw [List.mem_singleton] at hc
      exact hc ▸ isDigitC_digitChar h
    · rw [natDigits_ge h]
      intro c hc
      rcases List.mem_append.mp hc with hc | hc
      · exact ih _ (Nat.div_lt_self (by omega) (by omega)) c hc
      · rw [List.mem_singleton] at hc
        exact hc ▸ isDigitC_digitChar (Nat.mod_lt _ (by omega))

theorem natDigits_ne_nil (n : Nat) : natDigits n ≠ [] := by
  by_cases h : n < 10
  · rw [natDigits_lt h]
    simp
  · rw [natDigits_ge h]
    simp

theorem natDigits_head_ne_zero {n : Nat} (hn : n ≠ 0) :
    ∀ {c : Char} {cs : List Char}, natDigits n = c :: cs → c ≠ '0' := by
  induction n using Nat.strong_induction_on with
  | _ n ih =>
    intro c cs hc
    by_cases h : n < 10
    · rw [natDigits_lt h] at hc
      cases hc
      intro hz
      have := congrArg Char.toNat hz
      rw [digitChar_toNat h] at this
      have h0 : ('0').toNat = 48 := by decide
      omega
    · rw [natDigits_ge h] at hc
      rcases he : natDigits (n / 10) with _ | ⟨c0, cs0⟩
      · exact absurd he (natDigits_ne_nil _)
      · rw [he] at hc
        simp only [List.cons_append, List.cons.injEq] at hc
        exact hc.1 ▸ ih _ (Nat.div_lt_self (by omega) (by omega))
          (by omega : n / 10 ≠ 0) he

theorem digitsVal_nil (a : Nat) : digitsVal a [] = a := rfl

theorem digitsVal_cons (a : Nat) (c : Char) (t : List Char) :
    digitsVal a (c :: t) = digitsVal (10 * a + (c.toNat - 48)) t := rfl

theorem digitsVal_append (a : Nat) (l1 l2 : List Char) :
    digitsVal a (l1 ++ l2) = digitsVal (digitsVal a l1) l2 := by
  induction l1 generalizing a with
  | nil => rfl
  | cons c t ih => rw [List.cons_append, digitsVal_cons, digitsVal_cons, ih]

theorem digitsVal_natDigits (n : Nat) :
    ∀ a, digitsVal a (natDigits n) = a * 10 ^ (natDigits n).length + n := by
  induction n using Nat.strong_induction_on with
  | _ n ih =>
    intro a
    by_cases h : n < 10
    · rw [natDigits_lt h, digitsVal_cons, digitsVal_nil, digitChar_toNat h,
        List.length_singleton, pow_one]
      omega
    · have hd : n / 10 < n := Nat.div_lt_self (by omega) (by omega)
      have hm : n % 10 < 10 := Nat.mod_lt _ (by omega)
      rw [natDigits_ge h, digitsVal_append, ih _ hd, digitsVal_cons, digitsVal_nil,
        digitChar_toNat hm, List.length_append, List.length_singleton, pow_succ]
      have h48 : 48 + n % 10 - 48 = n % 10 := by omega
      rw [h48]
      have hsplit : 10 * (n / 10) + n % 10 = n := by omega
      calc 10 * (a * 10 ^ (natDigits (n / 10)).length + n / 10) + n % 10
          = a * (10 ^ (natDigits (n / 10)).length * 10) + (10 * (n / 10) + n % 10) := by
            ring
        _ = a * (10 ^ (natDigits (n / 10)).length * 10) + n := by rw [hsplit]

theorem takeWhile_append_all {p : Char → Bool} {l r : List Char}
    (hl : ∀ c ∈ l, p c = true) (hr : ∀ c, r.head? = some c → p c = false) :
    (l ++ r).takeWhile p = l := by
  induction l with
  | nil =>
    cases r with
    | nil => rfl
    | cons c t =>
      simp only [List.nil_append, List.takeWhile_cons, hr c rfl]
      rfl
  | cons c t ih =>
    simp only [List.cons_append, List.takeWhile_cons, hl c (by simp), if_true]
    rw [ih fun d hd => hl d (by simp [hd])]

theorem dropWhile_append_all {p : Char → Bool} {l r : List Char}
    (hl : ∀ c ∈ l, p c = true) (hr : ∀ c, r.head? = some c → p c = false) :
    (l ++ r).dropWhile p = r := by
  induction l with
  | nil =>
    cases r with
    | nil => rfl
    | cons c t =>
      simp only [List.nil_append, List.dropWhile_cons, hr c rfl]
      rfl
  | cons c t ih =>
    simp only [List.cons_append, List.dropWhile_cons, hl c (by simp), if_true]
    exact ih fun d hd => hl d (by simp [hd])

theorem parseNatPart_natDigits (n : Nat) {rest : List Char}
    (hr : noLeadDigit rest) :
    parseNatPart (natDigits n ++ rest) = some (n, rest) := by
  by_cases h0 : n = 0
  · subst h0
    rw [show natDigits 0 = ['0'] from natDigits_lt (by omega)]
    rfl
  · rcases he : natDigits n with _ | ⟨c, cs⟩
    · exact absurd he (natDigits_ne_nil _)
    · have hcz : c ≠ '0' := natDigits_head_ne_zero h0 he
      have hcd : isDigitC c = true :=
        natDigits_all_digits n c (he ▸ List.mem_cons_self c cs)
      have hall : ∀ d ∈ c :: cs, isDigitC d = true := fun d hd =>
        natDigits_all_digits n d (he ▸ hd)
      have hrd : ∀ d, rest.head? = some d → isDigitC d = false := hr
      simp only [List.cons_append, parseNatPart, if_neg hcz, hcd, if_true]
      rw [show c :: (cs ++ rest) = (c :: cs) ++ rest from rfl]
      rw [takeWhile_append_all hall hrd, dropWhile_append_all hall hrd]
      have := digitsVal_natDigits n 0
      rw [he] at this
      simp only [Nat.zero_mul, Nat.zero_add] at this
      rw [this]

theorem intRepr_head_digit_or_minus (i : Int) :
    ∃ c cs, intRepr i = c :: cs ∧ (c = '-' ∨ isDigitC c = true) := by
  rcases he : natDigits i.natAbs with _ | ⟨c, cs⟩
  · exact absurd he (natDigits_ne_nil _)
  · by_cases h : i < 0
    · exact ⟨'-', natDigits i.natAbs, by simp [intRepr, h], Or.inl rfl⟩
    · refine ⟨c, cs, by simp [intRepr, h, he], Or.inr ?_⟩
      exact natDigits_all_digits _ c (he ▸ List.mem_cons_self c cs)

theorem parseNumber_minus (cs : List Char) :
    parseNumber ('-' :: cs) = (parseNatPart cs).map fun p => (-(p.1 : Int), p.2) := by
  rw [parseNumber]
  simp

theorem parseNumber_cons_ne {c : Char} (hc : c ≠ '-') (cs : List Char) :
    parseNumber (c :: cs) = (parseNatPart (c :: cs)).map fun p => ((p.1 : Int), p.2) := by
  rw [parseNumber, if_neg]
  simp [hc]

theorem parseNumber_intRepr (i : Int) {rest : List Char}
    (hr : noLeadDigit rest) :
    parseNumber (intRepr i ++ rest) = some (i, rest) := by
  by_cases h : i < 0
  · have hrepr : intRepr i = '-' :: natDigits i.natAbs := by rw [intRepr, if_pos h]
    rw [hrepr, List.cons_append, parseNumber_minus,
      parseNatPart_natDigits i.natAbs hr]
    rw [Option.map_some']
    rw [show ((i.natAbs : Nat) : Int) = -i by omega]
    simp
  · have hrepr : intRepr i = natDigits i.natAbs := by rw [intRepr, if_neg h]
    rcases he : natDigits i.natAbs with _ | ⟨c, cs⟩
    · exact absurd he (natDigits_ne_nil _)
    · have hcd : isDigitC c = true :=
        natDigits_all_digits _ c (he ▸ List.mem_cons_self c cs)
      have hcm : c ≠ '-' := by
        intro hcm
        rw [hcm] at hcd
        exact absurd hcd (by decide)
      rw [hrepr, he, List.cons_append, parseNumber_cons_ne hcm,
        ← List.cons_append, ← he, parseNatPart_natDigits i.natAbs hr]
      rw [Option.map_some']
      rw [show ((i.natAbs : Nat) : Int) = i by omega]

/-! ### String escape round-trip -/

theorem string_mk_data (s : String) : String.mk s.data = s := rfl

theorem hexVal_hexChar {k : Nat} (h : k < 16) : hexVal (hexChar k) = some k := by
  unfold hexVal hexChar
  by_cases h10 : k < 10
  · rw [if_pos h10, toNat_ofNat_lt (by omega)]
    have hb : (48 ≤ 48 + k && 48 + k ≤ 57) = true := by simp; omega
    rw [hb]
    simp
  · rw [if_neg h10, toNat_ofNat_lt (by omega)]
    have h1 : (48 ≤ 87 + k && 87 + k ≤ 57) = false := by simp; omega
    have h2 : (97 ≤ 87 + k && 87 + k ≤ 102) = true := by simp; omega
    rw [h1, h2]
    simp

theorem parseStringBody_cons (c : Char) (l : List Char) :
    parseStringBody (c :: l) =
      if c = '"' then some ([], l)
      else if c = '\\' then parseEscape l
      else if c.toNat < 32 then none
      else consFirst c (parseStringBody l) := rfl

theorem parseStringBody_escList (s : List Char) :
    ∀ rest, parseStringBody (escList s ++ '"' :: rest) = some (s, rest) := by
  induction s with
  | nil =>
    intro rest
    simp [escList, parseStringBody]
  | cons c cs ih =>
    intro rest
    show parseStringBody (escChar c ++ escList cs ++ '"' :: rest) = _
    unfold escChar
    by_cases h1 : c = '"'
    · subst h1
      simp only [if_pos rfl, List.cons_append, List.nil_append]
      simp [parseStringBody, parseEscape, ih rest, consFirst]
    · rw [if_neg h1]
      by_cases h2 : c = '\\'
      · subst h2
        simp only [if_pos rfl, List.cons_append, List.nil_append]
        simp [parseStringBody, parseEscape, ih rest, consFirst]
      · rw [if_neg h2]
        by_cases h3 : c = '\n'
        · subst h3
          simp only [if_pos rfl, List.cons_append, List.nil_append]
          simp [parseStringBody, parseEscape, ih rest, consFirst]
        · rw [if_neg h3]
          by_cases h4 : c = '\t'
          · subst h4
            simp only [if_pos rfl, List.cons_append, List.nil_append]
            simp [parseStringBody, parseEscape, ih rest, consFirst]
          · rw [if_neg h4]
            by_cases h5 : c = '\r'
            · subst h5
              simp only [if_pos rfl, List.cons_append, List.nil_append]
              simp [parseStringBody, parseEscape, ih rest, consFirst]
            · rw [if_neg h5]
              by_cases h6 : c = Char.ofNat 8
              · subst h6
                simp only [if_pos rfl, List.cons_append, List.nil_append]
                simp [parseStringBody, parseEscape, ih rest, consFirst]
              · rw [if_neg h6]
                by_cases h7 : c = Char.ofNat 12
                · subst h7
                  simp only [if_pos rfl, List.cons_append, List.nil_append]
                  simp [parseStringBody, parseEscape, ih rest, consFirst]
                · rw [if_neg h7]
                  by_cases h8 : c.toNat < 32
                  · rw [if_pos h8]
                    have hdiv : c.toNat / 16 < 16 := by omega
                    have hmod : c.toNat % 16 < 16 := by omega
                    simp only [List.cons_append, List.nil_append]
                    rw [parseStringBody_cons, if_neg (by decide), if_pos rfl]
                    show parseEscape ('u' :: _) = _
                    rw [parseEscape]
                    simp only [reduceIte]
                    show parseU ('0' :: '0' :: hexChar (c.toNat / 16)
                      :: hexChar (c.toNat % 16) :: (escList cs ++ '"' :: rest)) = _
                    rw [parseU]
                    rw [show hexVal '0' = some 0 from by decide,
                      hexVal_hexChar hdiv, hexVal_hexChar hmod]
                    simp only
                    have hn : 4096 * 0 + 256 * 0 + 16 * (c.toNat / 16) + c.toNat % 16
                        = c.toNat := by omega
                    rw [hn]
                    rw [if_neg (by omega), if_neg (by omega)]
                    rw [Char.ofNat_toNat, ih rest]
                    rfl
                  · rw [if_neg h8]
                    simp only [List.cons_append]
                    rw [parseStringBody_cons, if_neg h1, if_neg h2, if_neg h8,
                      List.nil_append, ih rest]
                    rfl

/-! ### Heads of serializations -/

theorem digit_head_facts {c : Char} (h : isDigitC c = true) :
    c ≠ 'n' ∧ c ≠ 't' ∧ c ≠ 'f' ∧ c ≠ '"' ∧ c ≠ '[' ∧ c ≠ '{' ∧
      c ≠ ']' ∧ c ≠ '}' ∧ c ≠ ',' := by
  refine ⟨?_, ?_, ?_, ?_, ?_, ?_, ?_, ?_, ?_⟩ <;> rintro rfl <;>
    exact absurd h (by decide)

theorem serMin_head (v : JSONValue) :
    ∃ c cs, serMin v = c :: cs ∧ isWS c = false ∧ c ≠ ']' ∧ c ≠ '}' := by
  cases v with
  | null => exact ⟨_, _, rfl, by decide, by decide, by decide⟩
  | bool b =>
    cases b with
    | false => exact ⟨_, _, rfl, by decide, by decide, by decide⟩
    | true => exact ⟨_, _, rfl, by decide, by decide, by decide⟩
  | num n =>
    obtain ⟨c, cs, he, hc⟩ := intRepr_head_digit_or_minus n
    refine ⟨c, cs, he, ?_, ?_, ?_⟩ <;> rcases hc with rfl | hd
    · decide
    · exact isWS_false_of_digit hd
    · decide
    · exact (digit_head_facts hd).2.2.2.2.2.2.1
    · decide
    · exact (digit_head_facts hd).2.2.2.2.2.2.2.1
  | str s => exact ⟨_, _, rfl, by decide, by decide, by decide⟩
  | arr es =>
    cases es with
    | nil => exact ⟨_, _, rfl, by decide, by decide, by decide⟩
    | cons e es => exact ⟨_, _, rfl, by decide, by decide, by decide⟩
  | obj ms =>
    cases ms with
    | nil => exact ⟨_, _, rfl, by decide, by decide, by decide⟩
    | cons m ms => exact ⟨_, _, rfl, by decide, by decide, by decide⟩

theorem skipWS_serMin (v : JSONValue) (r : List Char) :
    skipWS (serMin v ++ r) = serMin v ++ r := by
  obtain ⟨c, cs, he, hws, -, -⟩ := serMin_head v
  rw [he, List.cons_append, skipWS_cons_not_ws hws]

/-! ### `nodupKeys` bridge and dict collapse -/

theorem strNotIn_iff (k : String) (l : List String) :
    strNotIn k l = true ↔ k ∉ l := by
  induction l with
  | nil => simp [strNotIn]
  | cons k0 rest ih =>
    simp only [strNotIn, Bool.and_eq_true, bne_iff_ne, ne_eq, ih,
      List.mem_cons]
    constructor
    · rintro ⟨h1, h2⟩ (rfl | hm)
      · exact h1 rfl
      · exact h2 hm
    · intro h
      exact ⟨fun hk => h (Or.inl hk.symm), fun hm => h (Or.inr hm)⟩

theorem nodupKeys_iff (l : List String) : nodupKeys l = true ↔ l.Nodup := by
  induction l with
  | nil => simp [nodupKeys]
  | cons k rest ih =>
    simp only [nodupKeys, Bool.and_eq_true, strNotIn_iff, ih, List.nodup_cons]

theorem insertEntry_notmem {k : String} :
    ∀ {acc : List (String × JSONValue)}, k ∉ keysOf acc →
      ∀ v, insertEntry acc k v = acc ++ [(k, v)] := by
  intro acc
  induction acc with
  | nil => intro _ v; rfl
  | cons m rest ih =>
    intro hk v
    obtain ⟨k0, v0⟩ := m
    simp only [keysOf, List.map_cons, List.mem_cons] at hk
    push_neg at hk
    rw [insertEntry, if_neg (fun h => hk.1 h.symm)]
    rw [ih (by simpa [keysOf] using hk.2) v]
    rfl

theorem collapseAux_nodup :
    ∀ (ms acc : List (String × JSONValue)),
      (keysOf acc ++ keysOf ms).Nodup → collapseAux acc ms = acc ++ ms := by
  intro ms
  induction ms with
  | nil => intro acc _; simp [collapseAux]
  | cons m rest ih =>
    intro acc hnd
    obtain ⟨k, v⟩ := m
    have hk : k ∉ keysOf acc := by
      simp only [keysOf, List.map_cons] at hnd
      have h2 : (k :: (List.map Prod.fst acc ++ List.map Prod.fst rest)).Nodup :=
        List.nodup_middle.mp hnd
      have h3 := (List.nodup_cons.mp h2).1
      exact fun hm => h3 (List.mem_append.mpr (Or.inl hm))
    rw [collapseAux, insertEntry_notmem hk v]
    rw [ih (acc ++ [(k, v)]) ?hnd2]
    · simp
    case hnd2 =>
      simp only [keysOf, List.map_append, List.map_cons, List.map_nil] at hnd ⊢
      simpa [List.append_assoc] using hnd

/-! ### Parser fuel bounds -/

theorem pfuel_pos (v : JSONValue) : 1 ≤ pfuel v := by
  cases v with
  | arr es =>
    cases es with
    | nil => simp [pfuel]
    | cons e es => simp only [pfuel]; omega
  | obj ms =>
    cases ms with
    | nil => simp [pfuel]
    | cons m ms => simp only [pfuel]; omega
  | null => simp [pfuel]
  | bool b => simp [pfuel]
  | num n => simp [pfuel]
  | str s => simp [pfuel]

theorem intRepr_ne_nil (n : Int) : intRepr n ≠ [] := by
  obtain ⟨c, cs, he, -⟩ := intRepr_head_digit_or_minus n
  rw [he]
  simp

mutual

theorem pfuel_le_serMin : ∀ v : JSONValue, pfuel v ≤ (serMin v).length
  | .null => by simp [pfuel, serMin]
  | .bool b => by cases b <;> simp [pfuel, serMin]
  | .num n => by
    have := intRepr_ne_nil n
    have : 1 ≤ (intRepr n).length := by
      cases he : intRepr n with
      | nil => exact absurd he (intRepr_ne_nil n)
      | cons c cs => simp
    simp only [pfuel, serMin]
    omega
  | .str s => by simp [pfuel, serMin]
  | .arr [] => by simp [pfuel, serMin]
  | .arr (e :: es) => by
    have h1 := pfuel_le_serMin e
    have h2 := pfuelElems_le_serMin es
    simp only [pfuel, serMin, List.length_cons, List.length_append,
      List.length_singleton]
    omega
  | .obj [] => by simp [pfuel, serMin]
  | .obj ((k, v) :: ms) => by
    have h1 := pfuel_le_serMin v
    have h2 := pfuelMems_le_serMin ms
    have hm : (serMinMember (k, v)).length = 3 + (escList k.data).length
        + (serMin v).length := by
      simp [serMinMember]
      omega
    simp only [pfuel, serMin, List.length_cons, List.length_append,
      List.length_singleton, hm]
    omega

theorem pfuelElems_le_serMin : ∀ es : List JSONValue,
    pfuelElems es ≤ (serMinArrRest es).length
  | [] => by simp [pfuelElems, serMinArrRest]
  | e :: es => by
    have h1 := pfuel_le_serMin e
    have h2 := pfuelElems_le_serMin es
    simp only [pfuelElems, serMinArrRest, List.length_cons, List.length_append]
    omega

theorem pfuelMems_le_serMin : ∀ ms : List (String × JSONValue),
    pfuelMems ms ≤ (serMinObjRest ms).length
  | [] => by simp [pfuelMems, serMinObjRest]
  | (k, v) :: ms => by
    have h1 := pfuel_le_serMin v
    have h2 := pfuelMems_le_serMin ms
    have hm : (serMinMember (k, v)).length = 3 + (escList k.data).length
        + (serMin v).length := by
      simp [serMinMember]
      omega
    simp only [pfuelMems, serMinObjRest, List.length_cons, List.length_append, hm]
    omega

end

theorem noLeadDigit_arrTail (es : List JSONValue) (rest : List Char) :
    noLeadDigit (serMinArrRest es ++ ']' :: rest) := by
  cases es with
  | nil => exact noLeadDigit_cons (by decide) rest
  | cons e es => exact noLeadDigit_cons (by decide) _

theorem noLeadDigit_objTail (ms : List (String × JSONValue)) (rest : List Char) :
    noLeadDigit (serMinObjRest ms ++ '}' :: rest) := by
  cases ms with
  | nil => exact noLeadDigit_cons (by decide) rest
  | cons m ms => exact noLeadDigit_cons (by decide) _

mutual

theorem parseVal_serMin : ∀ (v : JSONValue) (rest : List Char) (fuel : Nat),
    pfuel v ≤ fuel → noLeadDigit rest → wfVal v = true →
    parseVal fuel (serMin v ++ rest) = some (v, rest)
  | v, _, 0, hf, _, _ => absurd (le_trans (pfuel_pos v) hf) (by omega)
  | .null, rest, fuel + 1, _, _, _ => rfl
  | .bool true, rest, fuel + 1, _, _, _ => rfl
  | .bool false, rest, fuel + 1, _, _, _ => rfl
  | .num n, rest, fuel + 1, hf, hr, hw => by
    show parseVal (fuel + 1) (intRepr n ++ rest) = some (.num n, rest)
    obtain ⟨c, cs, he, hcd⟩ := intRepr_head_digit_or_minus n
    have hws : isWS c = false := by
      rcases hcd with rfl | hd
      · decide
      · exact isWS_false_of_digit hd
    have hc : c ≠ 'n' ∧ c ≠ 't' ∧ c ≠ 'f' ∧ c ≠ '"' ∧ c ≠ '[' ∧ c ≠ '{' := by
      rcases hcd with rfl | hd
      · exact ⟨by decide, by decide, by decide, by decide, by decide, by decide⟩
      · have h := digit_head_facts hd
        exact ⟨h.1, h.2.1, h.2.2.1, h.2.2.2.1, h.2.2.2.2.1, h.2.2.2.2.2.1⟩
    rw [he, List.cons_append, parseVal, skipWS_cons_not_ws hws]
    simp only [hc.1, hc.2.1, hc.2.2.1, hc.2.2.2.1, hc.2.2.2.2.1, hc.2.2.2.2.2,
      if_false, ite_false]
    rw [← List.cons_append, ← he, parseNumber_intRepr n hr]
    rfl
  | .str s, rest, fuel + 1, _, _, _ => by
    show parseVal (fuel + 1) (('"' :: (escList s.data ++ ['"'])) ++ rest)
      = some (.str s, rest)
    have hshape : ('"' :: (escList s.data ++ ['"'])) ++ rest
        = '"' :: (escList s.data ++ '"' :: rest) := by simp
    rw [hshape, parseVal, skipWS_cons_not_ws (by decide)]
    simp [parseStringBody_escList, string_mk_data]
  | .arr [], rest, fuel + 1, _, _, _ => rfl
  | .arr (e :: es), rest, fuel + 1, hf, hr, hw => by
    show parseVal (fuel + 1)
      (('[' :: (serMin e ++ serMinArrRest es ++ [']'])) ++ rest)
      = some (.arr (e :: es), rest)
    have hshape : ('[' :: (serMin e ++ serMinArrRest es ++ [']'])) ++ rest
        = '[' :: (serMin e ++ (serMinArrRest es ++ ']' :: rest)) := by simp
    rw [hshape, parseVal, skipWS_cons_not_ws (by decide)]
    simp only [show (('[' : Char) = 'n') = False from by decide,
      show (('[' : Char) = 't') = False from by decide,
      show (('[' : Char) = 'f') = False from by decide,
      show (('[' : Char) = '"') = False from by decide,
      show (('[' : Char) = '[') = True from by simp,
      if_false, if_true]
    rw [skipWS_serMin]
    obtain ⟨c, cs, he, hws, hne1, hne2⟩ := serMin_head e
    have hhead : (serMin e ++ (serMinArrRest es ++ ']' :: rest)).head? = some c := by
      rw [he]; rfl
    have hwf : (wfVal e && wfElems es) = true := hw
    rw [hhead, if_neg (by simp [hne1]),
      parseElems_serMin e es rest fuel (by simp only [pfuel] at hf; omega) hwf]
    rfl
  | .obj [], rest, fuel + 1, _, _, _ => rfl
  | .obj ((k, v) :: ms), rest, fuel + 1, hf, hr, hw => by
    show parseVal (fuel + 1)
      (('{' :: (serMinMember (k, v) ++ serMinObjRest ms ++ ['}'])) ++ rest)
      = some (.obj ((k, v) :: ms), rest)
    have hshape : ('{' :: (serMinMember (k, v) ++ serMinObjRest ms ++ ['}'])) ++ rest
        = '{' :: (serMinMember (k, v) ++ (serMinObjRest ms ++ '}' :: rest)) := by
      simp
    rw [hshape, parseVal, skipWS_cons_not_ws (by decide)]
    simp only [show (('{' : Char) = 'n') = False from by decide,
      show (('{' : Char) = 't') = False from by decide,
      show (('{' : Char) = 'f') = False from by decide,
      show (('{' : Char) = '"') = False from by decide,
      show (('{' : Char) = '[') = False from by decide,
      show (('{' : Char) = '{') = True from by simp,
      if_false, if_true]
    have hwd : (nodupKeys (keysOf ((k, v) :: ms)) && wfMembers ((k, v) :: ms)) = true := hw
    rw [Bool.and_eq_true] at hwd
    have hmm : serMinMember (k, v) ++ (serMinObjRest ms ++ '}' :: rest)
        = '"' :: (escList k.data ++ '"' :: ':' :: serMin v
            ++ (serMinObjRest ms ++ '}' :: rest)) := by
      simp [serMinMember]
    rw [hmm, skipWS_cons_not_ws (by decide), List.head?_cons,
      if_neg (by simp), ← hmm]
    rw [parseMembers_serMin k v ms rest fuel
      (by simp only [pfuel] at hf; omega) hwd.2, Option.map_some']
    rw [collapseAux_nodup ((k, v) :: ms) [] (by
      simpa [keysOf] using (nodupKeys_iff _).mp hwd.1)]
    rfl
termination_by v _rest _fuel => sizeOf v

theorem parseElems_serMin : ∀ (e : JSONValue) (es : List JSONValue)
    (rest : List Char) (fuel : Nat),
    1 + pfuel e + pfuelElems es ≤ fuel → (wfVal e && wfElems es) = true →
    parseElems fuel (serMin e ++ (serMinArrRest es ++ ']' :: rest))
      = some (e :: es, rest)
  | _, _, _, 0, hf, _ => absurd hf (by omega)
  | e, [], rest, fuel + 1, hf, hw => by
    rw [Bool.and_eq_true] at hw
    rw [parseElems,
      parseVal_serMin e _ fuel (by omega) (noLeadDigit_arrTail [] rest) hw.1]
    simp only [Option.some_bind]
    have h0 : serMinArrRest [] ++ ']' :: rest = ']' :: rest := rfl
    rw [h0, skipWS_cons_not_ws (by decide), List.head?_cons,
      if_neg (by decide), if_pos rfl, List.tail_cons]
  | e, e2 :: es2, rest, fuel + 1, hf, hw => by
    rw [Bool.and_eq_true] at hw
    rw [parseElems,
      parseVal_serMin e _ fuel (by omega) (noLeadDigit_arrTail (e2 :: es2) rest)
        hw.1]
    simp only [Option.some_bind]
    have h0 : serMinArrRest (e2 :: es2) ++ ']' :: rest
        = ',' :: (serMin e2 ++ (serMinArrRest es2 ++ ']' :: rest)) := by
      simp [serMinArrRest]
    rw [h0, skipWS_cons_not_ws (by decide), List.head?_cons, if_pos rfl,
      List.tail_cons]
    have hwf2 : (wfVal e2 && wfElems es2) = true := hw.2
    rw [parseElems_serMin e2 es2 rest fuel
      (by simp only [pfuelElems] at hf; omega) hwf2, Option.map_some']
termination_by e es _rest _fuel => 1 + sizeOf e + sizeOf es

theorem parseMembers_serMin : ∀ (k : String) (v : JSONValue)
    (ms : List (String × JSONValue)) (rest : List Char) (fuel : Nat),
    1 + pfuel v + pfuelMems ms ≤ fuel → wfMembers ((k, v) :: ms) = true →
    parseMembers fuel (serMinMember (k, v) ++ (serMinObjRest ms ++ '}' :: rest))
      = some ((k, v) :: ms, rest)
  | _, _, _, _, 0, hf, _ => absurd hf (by omega)
  | k, v, [], rest, fuel + 1, hf, hw => by
    have hw1 : (wfVal v && wfMembers []) = true := hw
    rw [Bool.and_eq_true] at hw1
    have hmm : serMinMember (k, v) ++ (serMinObjRest [] ++ '}' :: rest)
        = '"' :: (escList k.data
            ++ '"' :: (':' :: (serMin v ++ (serMinObjRest [] ++ '}' :: rest)))) := by
      simp [serMinMember]
    rw [hmm, parseMembers, List.head?_cons, if_pos rfl, List.tail_cons,
      parseStringBody_escList]
    simp only [Option.some_bind]
    rw [skipWS_cons_not_ws (by decide), List.head?_cons, if_pos rfl,
      List.tail_cons,
      parseVal_serMin v _ fuel (by omega) (noLeadDigit_objTail [] rest) hw1.1]
    simp only [Option.some_bind]
    have h0 : serMinObjRest [] ++ '}' :: rest = '}' :: rest := rfl
    rw [h0, skipWS_cons_not_ws (by decide), List.head?_cons,
      if_neg (by decide), if_pos rfl, List.tail_cons, string_mk_data]
  | k, v, (k2, v2) :: ms2, rest, fuel + 1, hf, hw => by
    have hw1 : (wfVal v && wfMembers ((k2, v2) :: ms2)) = true := hw
    rw [Bool.and_eq_true] at hw1
    have hmm : serMinMember (k, v) ++ (serMinObjRest ((k2, v2) :: ms2) ++ '}' :: rest)
        = '"' :: (escList k.data
            ++ '"' :: (':' :: (serMin v
              ++ (serMinObjRest ((k2, v2) :: ms2) ++ '}' :: rest)))) := by
      simp [serMinMember]
    rw [hmm, parseMembers, List.head?_cons, if_pos rfl, List.tail_cons,
      parseStringBody_escList]
    simp only [Option.some_bind]
    rw [skipWS_cons_not_ws (by decide), List.head?_cons, if_pos rfl,
      List.tail_cons,
      parseVal_serMin v _ fuel (by omega)
        (noLeadDigit_objTail ((k2, v2) :: ms2) rest) hw1.1]
    simp only [Option.some_bind]
    have h0 : serMinObjRest ((k2, v2) :: ms2) ++ '}' :: rest
        = ',' :: (serMinMember (k2, v2) ++ (serMinObjRest ms2 ++ '}' :: rest)) := by
      simp [serMinObjRest]
    rw [h0, skipWS_cons_not_ws (by decide), List.head?_cons, if_pos rfl,
      List.tail_cons]
    have h1 : skipWS (serMinMember (k2, v2) ++ (serMinObjRest ms2 ++ '}' :: rest))
        = serMinMember (k2, v2) ++ (serMinObjRest ms2 ++ '}' :: rest) := by
      have h2 : serMinMember (k2, v2) ++ (serMinObjRest ms2 ++ '}' :: rest)
          = '"' :: (escList k2.data ++ '"' :: ':' :: serMin v2
              ++ (serMinObjRest ms2 ++ '}' :: rest)) := by
        simp [serMinMember]
      rw [h2, skipWS_cons_not_ws (by decide)]
    rw [h1, parseMembers_serMin k2 v2 ms2 rest fuel
      (by simp only [pfuelMems] at hf; omega) hw1.2,
      Option.map_some', string_mk_data]
termination_by _k v ms _rest _fuel => 2 + sizeOf v + sizeOf ms

end

/-- Round-trip at the top level: parsing the Minify serialization of a
well-formed value gives the value back. -/
theorem parseChars_serMin (v : JSONValue) (hw : wfVal v = true) :
    parseChars (serMin v) = some v := by
  unfold parseChars
  have h0 : serMin v = serMin v ++ [] := by simp
  rw [show parseVal ((serMin v).length + 1) (serMin v)
      = parseVal ((serMin v).length + 1) (serMin v ++ []) from by rw [← h0]]
  rw [parseVal_serMin v [] ((serMin v).length + 1)
    (le_trans (pfuel_le_serMin v) (by omega)) noLeadDigit_nil hw]
  rfl

theorem serFmt_head (v : JSONValue) (l : Nat) :
    ∃ c cs, serFmt v l = c :: cs ∧ isWS c = false ∧ c ≠ ']' ∧ c ≠ '}' := by
  cases v with
  | null => exact ⟨_, _, rfl, by decide, by decide, by decide⟩
  | bool b =>
    cases b with
    | false => exact ⟨_, _, rfl, by decide, by decide, by decide⟩
    | true => exact ⟨_, _, rfl, by decide, by decide, by decide⟩
  | num n =>
    obtain ⟨c, cs, he, hc⟩ := intRepr_head_digit_or_minus n
    refine ⟨c, cs, he, ?_, ?_, ?_⟩ <;> rcases hc with rfl | hd
    · decide
    · exact isWS_false_of_digit hd
    · decide
    · exact (digit_head_facts hd).2.2.2.2.2.2.1
    · decide
    · exact (digit_head_facts hd).2.2.2.2.2.2.2.1
  | str s => exact ⟨_, _, rfl, by decide, by decide, by decide⟩
  | arr es =>
    cases es with
    | nil => exact ⟨_, _, rfl, by decide, by decide, by decide⟩
    | cons e es => exact ⟨_, _, rfl, by decide, by decide, by decide⟩
  | obj ms =>
    cases ms with
    | nil => exact ⟨_, _, rfl, by decide, by decide, by decide⟩
    | cons m ms => exact ⟨_, _, rfl, by decide, by decide, by decide⟩

theorem skipWS_serFmt (v : JSONValue) (l : Nat) (r : List Char) :
    skipWS (serFmt v l ++ r) = serFmt v l ++ r := by
  obtain ⟨c, cs, he, hws, -, -⟩ := serFmt_head v l
  rw [he, List.cons_append, skipWS_cons_not_ws hws]

theorem noLeadDigit_fmtArrTail (es : List JSONValue) (l l2 : Nat) (rest : List Char) :
    noLeadDigit (serFmtArrRest es l ++ (nlIndent l2 ++ ']' :: rest)) := by
  cases es with
  | nil => exact noLeadDigit_cons (by decide) _
  | cons e es => exact noLeadDigit_cons (by decide) _

theorem noLeadDigit_fmtObjTail (ms : List (String × JSONValue)) (l l2 : Nat)
    (rest : List Char) :
    noLeadDigit (serFmtObjRest ms l ++ (nlIndent l2 ++ '}' :: rest)) := by
  cases ms with
  | nil => exact noLeadDigit_cons (by decide) _
  | cons m ms => exact noLeadDigit_cons (by decide) _

theorem wsOnly_single_space : wsOnly [' '] := by
  intro c hc
  simp only [List.mem_singleton] at hc
  subst hc
  rfl

mutual

theorem pfuel_le_serFmt : ∀ (v : JSONValue) (l : Nat), pfuel v ≤ (serFmt v l).length
  | .null, _ => by simp [pfuel, serFmt]
  | .bool b, _ => by cases b <;> simp [pfuel, serFmt]
  | .num n, _ => by
    have h1 : 1 ≤ (intRepr n).length := by
      cases he : intRepr n with
      | nil => exact absurd he (intRepr_ne_nil n)
      | cons c cs => simp
    simp only [pfuel, serFmt]
    omega
  | .str s, _ => by simp [pfuel, serFmt]
  | .arr [], _ => by simp [pfuel, serFmt]
  | .arr (e :: es), l => by
    have h1 := pfuel_le_serFmt e (l + 1)
    have h2 := pfuelElems_le_serFmt es (l + 1)
    simp only [pfuel, serFmt, List.length_cons, List.length_append,
      List.length_singleton]
    omega
  | .obj [], _ => by simp [pfuel, serFmt]
  | .obj ((k, v) :: ms), l => by
    have h1 := pfuel_le_serFmt v (l + 1)
    have h2 := pfuelMems_le_serFmt ms (l + 1)
    have hm : (serFmtMember (k, v) (l + 1)).length = 4 + (escList k.data).length
        + (serFmt v (l + 1)).length := by
      simp [serFmtMember]
      omega
    simp only [pfuel, serFmt, List.length_cons, List.length_append,
      List.length_singleton, hm]
    omega

theorem pfuelElems_le_serFmt : ∀ (es : List JSONValue) (l : Nat),
    pfuelElems es ≤ (serFmtArrRest es l).length
  | [], _ => by simp [pfuelElems, serFmtArrRest]
  | e :: es, l => by
    have h1 := pfuel_le_serFmt e l
    have h2 := pfuelElems_le_serFmt es l
    simp only [pfuelElems, serFmtArrRest, List.length_cons, List.length_append]
    omega

theorem pfuelMems_le_serFmt : ∀ (ms : List (String × JSONValue)) (l : Nat),
    pfuelMems ms ≤ (serFmtObjRest ms l).length
  | [], _ => by simp [pfuelMems, serFmtObjRest]
  | (k, v) :: ms, l => by
    have h1 := pfuel_le_serFmt v l
    have h2 := pfuelMems_le_serFmt ms l
    have hm : (serFmtMember (k, v) l).length = 4 + (escList k.data).length
        + (serFmt v l).length := by
      simp [serFmtMember]
      omega
    simp only [pfuelMems, serFmtObjRest, List.length_cons, List.length_append, hm]
    omega

end

mutual

theorem parseVal_serFmt : ∀ (v : JSONValue) (l : Nat) (ws rest : List Char)
    (fuel : Nat), wsOnly ws → pfuel v ≤ fuel → noLeadDigit rest →
    wfVal v = true →
    parseVal fuel (ws ++ (serFmt v l ++ rest)) = some (v, rest)
  | v, _, _, _, 0, _, hf, _, _ => absurd (le_trans (pfuel_pos v) hf) (by omega)
  | .null, l, ws, rest, fuel + 1, hws, _, _, _ => by
    show parseVal (fuel + 1) (ws ++ (['n', 'u', 'l', 'l'] ++ rest)) = _
    rw [parseVal, skipWS_append_ws hws]
    simp only [List.cons_append, List.nil_append]
    rw [skipWS_cons_not_ws (by decide)]
    simp
  | .bool true, l, ws, rest, fuel + 1, hws, _, _, _ => by
    show parseVal (fuel + 1) (ws ++ (['t', 'r', 'u', 'e'] ++ rest)) = _
    rw [parseVal, skipWS_append_ws hws]
    simp only [List.cons_append, List.nil_append]
    rw [skipWS_cons_not_ws (by decide)]
    simp
  | .bool false, l, ws, rest, fuel + 1, hws, _, _, _ => by
    show parseVal (fuel + 1) (ws ++ (['f', 'a', 'l', 's', 'e'] ++ rest)) = _
    rw [parseVal, skipWS_append_ws hws]
    simp only [List.cons_append, List.nil_append]
    rw [skipWS_cons_not_ws (by decide)]
    simp
  | .num n, l, ws, rest, fuel + 1, hws, hf, hr, hw => by
    show parseVal (fuel + 1) (ws ++ (intRepr n ++ rest)) = some (.num n, rest)
    obtain ⟨c, cs, he, hcd⟩ := intRepr_head_digit_or_minus n
    have hws2 : isWS c = false := by
      rcases hcd with rfl | hd
      · decide
      · exact isWS_false_of_digit hd
    have hc : c ≠ 'n' ∧ c ≠ 't' ∧ c ≠ 'f' ∧ c ≠ '"' ∧ c ≠ '[' ∧ c ≠ '{' := by
      rcases hcd with rfl | hd
      · exact ⟨by decide, by decide, by decide, by decide, by decide, by decide⟩
      · have h := digit_head_facts hd
        exact ⟨h.1, h.2.1, h.2.2.1, h.2.2.2.1, h.2.2.2.2.1, h.2.2.2.2.2.1⟩
    rw [he, List.cons_append, parseVal, skipWS_append_ws hws,
      skipWS_cons_not_ws hws2]
    simp only [hc.1, hc.2.1, hc.2.2.1, hc.2.2.2.1, hc.2.2.2.2.1, hc.2.2.2.2.2,
      if_false, ite_false]
    rw [← List.cons_append, ← he, parseNumber_intRepr n hr]
    rfl
  | .str s, l, ws, rest, fuel + 1, hws, _, _, _ => by
    show parseVal (fuel + 1) (ws ++ (('"' :: (escList s.data ++ ['"'])) ++ rest))
      = some (.str s, rest)
    have hshape : ('"' :: (escList s.data ++ ['"'])) ++ rest
        = '"' :: (escList s.data ++ '"' :: rest) := by simp
    rw [hshape, parseVal, skipWS_append_ws hws, skipWS_cons_not_ws (by decide)]
    simp [parseStringBody_escList, string_mk_data]
  | .arr [], l, ws, rest, fuel + 1, hws, _, _, _ => by
    show parseVal (fuel + 1) (ws ++ (['[', ']'] ++ rest)) = some (.arr [], rest)
    rw [parseVal, skipWS_append_ws hws]
    simp only [List.cons_append, List.nil_append]
    rw [skipWS_cons_not_ws (by decide)]
    simp only [show (('[' : Char) = 'n') = False from by decide,
      show (('[' : Char) = 't') = False from by decide,
      show (('[' : Char) = 'f') = False from by decide,
      show (('[' : Char) = '"') = False from by decide,
      show (('[' : Char) = '[') = True from by simp,
      if_false, if_true]
    rw [skipWS_cons_not_ws (by decide)]
    simp
  | .arr (e :: es), l, ws, rest, fuel + 1, hws, hf, hr, hw => by
    show parseVal (fuel + 1)
      (ws ++ (('[' :: (nlIndent (l + 1) ++ serFmt e (l + 1)
        ++ serFmtArrRest es (l + 1) ++ nlIndent l ++ [']'])) ++ rest))
      = some (.arr (e :: es), rest)
    have hshape : ('[' :: (nlIndent (l + 1) ++ serFmt e (l + 1)
        ++ serFmtArrRest es (l + 1) ++ nlIndent l ++ [']'])) ++ rest
        = '[' :: (nlIndent (l + 1) ++ (serFmt e (l + 1)
            ++ (serFmtArrRest es (l + 1) ++ (nlIndent l ++ ']' :: rest)))) := by
      simp
    rw [hshape, parseVal, skipWS_append_ws hws, skipWS_cons_not_ws (by decide)]
    simp only [show (('[' : Char) = 'n') = False from by decide,
      show (('[' : Char) = 't') = False from by decide,
      show (('[' : Char) = 'f') = False from by decide,
      show (('[' : Char) = '"') = False from by decide,
      show (('[' : Char) = '[') = True from by simp,
      if_false, if_true]
    rw [skipWS_append_ws (wsOnly_nlIndent (l + 1)), skipWS_serFmt]
    obtain ⟨c, cs, he, hws2, hne1, hne2⟩ := serFmt_head e (l + 1)
    have hhead : (serFmt e (l + 1) ++ (serFmtArrRest es (l + 1)
        ++ (nlIndent l ++ ']' :: rest))).head? = some c := by
      rw [he]; rfl
    have hwf : (wfVal e && wfElems es) = true := hw
    rw [hhead, if_neg (by simp [hne1])]
    rw [show serFmt e (l + 1) ++ (serFmtArrRest es (l + 1) ++ (nlIndent l ++ ']' :: rest))
      = [] ++ (serFmt e (l + 1) ++ (serFmtArrRest es (l + 1) ++ (nlIndent l ++ ']' :: rest)))
      from by simp]
    rw [parseElems_serFmt e es (l + 1) l [] rest fuel (by intro c hc; simp at hc)
      (by simp only [pfuel] at hf; omega) hwf]
    rfl
  | .obj [], l, ws, rest, fuel + 1, hws, _, _, _ => by
    show parseVal (fuel + 1) (ws ++ (['{', '}'] ++ rest)) = some (.obj [], rest)
    rw [parseVal, skipWS_append_ws hws]
    simp only [List.cons_append, List.nil_append]
    rw [skipWS_cons_not_ws (by decide)]
    simp only [show (('{' : Char) = 'n') = False from by decide,
      show (('{' : Char) = 't') = False from by decide,
      show (('{' : Char) = 'f') = False from by decide,
      show (('{' : Char) = '"') = False from by decide,
      show (('{' : Char) = '[') = False from by decide,
      show (('{' : Char) = '{') = True from by simp,
      if_false, if_true]
    rw [skipWS_cons_not_ws (by decide)]
    simp
  | .obj ((k, v) :: ms), l, ws, rest, fuel + 1, hws, hf, hr, hw => by
    show parseVal (fuel + 1)
      (ws ++ (('{' :: (nlIndent (l + 1) ++ serFmtMember (k, v) (l + 1)
        ++ serFmtObjRest ms (l + 1) ++ nlIndent l ++ ['}'])) ++ rest))
      = some (.obj ((k, v) :: ms), rest)
    have hshape : ('{' :: (nlIndent (l + 1) ++ serFmtMember (k, v) (l + 1)
        ++ serFmtObjRest ms (l + 1) ++ nlIndent l ++ ['}'])) ++ rest
        = '{' :: (nlIndent (l + 1) ++ (serFmtMember (k, v) (l + 1)
            ++ (serFmtObjRest ms (l + 1) ++ (nlIndent l ++ '}' :: rest)))) := by
      simp
    rw [hshape, parseVal, skipWS_append_ws hws, skipWS_cons_not_ws (by decide)]
    simp only [show (('{' : Char) = 'n') = False from by decide,
      show (('{' : Char) = 't') = False from by decide,
      show (('{' : Char) = 'f') = False from by decide,
      show (('{' : Char) = '"') = False from by decide,
      show (('{' : Char) = '[') = False from by decide,
      show (('{' : Char) = '{') = True from by simp,
      if_false, if_true]
    have hwd : (nodupKeys (keysOf ((k, v) :: ms)) && wfMembers ((k, v) :: ms)) = true := hw
    rw [Bool.and_eq_true] at hwd
    have hmm : serFmtMember (k, v) (l + 1)
        ++ (serFmtObjRest ms (l + 1) ++ (nlIndent l ++ '}' :: rest))
        = '"' :: (escList k.data ++ '"' :: ':' :: ' ' :: serFmt v (l + 1)
            ++ (serFmtObjRest ms (l + 1) ++ (nlIndent l ++ '}' :: rest))) := by
      simp [serFmtMember]
    have hskip : skipWS (nlIndent (l + 1) ++ (serFmtMember (k, v) (l + 1)
        ++ (serFmtObjRest ms (l + 1) ++ (nlIndent l ++ '}' :: rest))))
        = serFmtMember (k, v) (l + 1)
          ++ (serFmtObjRest ms (l + 1) ++ (nlIndent l ++ '}' :: rest)) := by
      rw [skipWS_append_ws (wsOnly_nlIndent (l + 1)), hmm,
        skipWS_cons_not_ws (by decide)]
    rw [hskip, hmm, List.head?_cons, if_neg (by simp), ← hmm]
    rw [parseMembers_serFmt k v ms (l + 1) l rest fuel
      (by simp only [pfuel] at hf; omega) hwd.2, Option.map_some']
    rw [collapseAux_nodup ((k, v) :: ms) [] (by
      simpa [keysOf] using (nodupKeys_iff _).mp hwd.1)]
    rfl
termination_by v _l _ws _rest _fuel => sizeOf v

theorem parseElems_serFmt : ∀ (e : JSONValue) (es : List JSONValue)
    (l l2 : Nat) (ws rest : List Char) (fuel : Nat), wsOnly ws →
    1 + pfuel e + pfuelElems es ≤ fuel → (wfVal e && wfElems es) = true →
    parseElems fuel (ws ++ (serFmt e l
        ++ (serFmtArrRest es l ++ (nlIndent l2 ++ ']' :: rest))))
      = some (e :: es, rest)
  | _, _, _, _, _, _, 0, _, hf, _ => absurd hf (by omega)
  | e, [], l, l2, ws, rest, fuel + 1, hws, hf, hw => by
    rw [Bool.and_eq_true] at hw
    rw [parseElems,
      parseVal_serFmt e l ws _ fuel hws (by omega)
        (noLeadDigit_fmtArrTail [] l l2 rest) hw.1]
    simp only [Option.some_bind]
    have h0 : serFmtArrRest [] l ++ (nlIndent l2 ++ ']' :: rest)
        = nlIndent l2 ++ ']' :: rest := rfl
    rw [h0, skipWS_append_ws (wsOnly_nlIndent l2), skipWS_cons_not_ws (by decide),
      List.head?_cons, if_neg (by decide), if_pos rfl, List.tail_cons]
  | e, e2 :: es2, l, l2, ws, rest, fuel + 1, hws, hf, hw => by
    rw [Bool.and_eq_true] at hw
    rw [parseElems,
      parseVal_serFmt e l ws _ fuel hws (by omega)
        (noLeadDigit_fmtArrTail (e2 :: es2) l l2 rest) hw.1]
    simp only [Option.some_bind]
    have h0 : serFmtArrRest (e2 :: es2) l ++ (nlIndent l2 ++ ']' :: rest)
        = ',' :: (nlIndent l ++ (serFmt e2 l
            ++ (serFmtArrRest es2 l ++ (nlIndent l2 ++ ']' :: rest)))) := by
      simp [serFmtArrRest]
    rw [h0, skipWS_cons_not_ws (by decide), List.head?_cons, if_pos rfl,
      List.tail_cons]
    have hwf2 : (wfVal e2 && wfElems es2) = true := hw.2
    rw [parseElems_serFmt e2 es2 l l2 (nlIndent l) rest fuel
      (wsOnly_nlIndent l) (by simp only [pfuelElems] at hf; omega) hwf2,
      Option.map_some']
termination_by e es _l _l2 _ws _rest _fuel => 1 + sizeOf e + sizeOf es

theorem parseMembers_serFmt : ∀ (k : String) (v : JSONValue)
    (ms : List (String × JSONValue)) (l l2 : Nat) (rest : List Char)
    (fuel : Nat),
    1 + pfuel v + pfuelMems ms ≤ fuel → wfMembers ((k, v) :: ms) = true →
    parseMembers fuel (serFmtMember (k, v) l
        ++ (serFmtObjRest ms l ++ (nlIndent l2 ++ '}' :: rest)))
      = some ((k, v) :: ms, rest)
  | _, _, _, _, _, _, 0, hf, _ => absurd hf (by omega)
  | k, v, [], l, l2, rest, fuel + 1, hf, hw => by
    have hw1 : (wfVal v && wfMembers []) = true := hw
    rw [Bool.and_eq_true] at hw1
    have hmm : serFmtMember (k, v) l ++ (serFmtObjRest [] l ++ (nlIndent l2 ++ '}' :: rest))
        = '"' :: (escList k.data
            ++ '"' :: (':' :: (' ' :: (serFmt v l
              ++ (serFmtObjRest [] l ++ (nlIndent l2 ++ '}' :: rest)))))) := by
      simp [serFmtMember]
    rw [hmm, parseMembers, List.head?_cons, if_pos rfl, List.tail_cons,
      parseStringBody_escList]
    simp only [Option.some_bind]
    rw [skipWS_cons_not_ws (by decide), List.head?_cons, if_pos rfl,
      List.tail_cons]
    rw [show (' ' :: (serFmt v l ++ (serFmtObjRest [] l ++ (nlIndent l2 ++ '}' :: rest))))
      = [' '] ++ (serFmt v l ++ (serFmtObjRest [] l ++ (nlIndent l2 ++ '}' :: rest)))
      from rfl]
    rw [parseVal_serFmt v l [' '] _ fuel wsOnly_single_space (by omega)
      (noLeadDigit_fmtObjTail [] l l2 rest) hw1.1]
    simp only [Option.some_bind]
    have h0 : serFmtObjRest [] l ++ (nlIndent l2 ++ '}' :: rest)
        = nlIndent l2 ++ '}' :: rest := rfl
    rw [h0, skipWS_append_ws (wsOnly_nlIndent l2), skipWS_cons_not_ws (by decide),
      List.head?_cons, if_neg (by decide), if_pos rfl, List.tail_cons,
      string_mk_data]
  | k, v, (k2, v2) :: ms2, l, l2, rest, fuel + 1, hf, hw => by
    have hw1 : (wfVal v && wfMembers ((k2, v2) :: ms2)) = true := hw
    rw [Bool.and_eq_true] at hw1
    have hmm : serFmtMember (k, v) l
        ++ (serFmtObjRest ((k2, v2) :: ms2) l ++ (nlIndent l2 ++ '}' :: rest))
        = '"' :: (escList k.data
            ++ '"' :: (':' :: (' ' :: (serFmt v l
              ++ (serFmtObjRest ((k2, v2) :: ms2) l
                ++ (nlIndent l2 ++ '}' :: rest)))))) := by
      simp [serFmtMember]
    rw [hmm, parseMembers, List.head?_cons, if_pos rfl, List.tail_cons,
      parseStringBody_escList]
    simp only [Option.some_bind]
    rw [skipWS_cons_not_ws (by decide), List.head?_cons, if_pos rfl,
      List.tail_cons]
    rw [show (' ' :: (serFmt v l ++ (serFmtObjRest ((k2, v2) :: ms2) l
        ++ (nlIndent l2 ++ '}' :: rest))))
      = [' '] ++ (serFmt v l ++ (serFmtObjRest ((k2, v2) :: ms2) l
        ++ (nlIndent l2 ++ '}' :: rest)))
      from rfl]
    rw [parseVal_serFmt v l [' '] _ fuel wsOnly_single_space (by omega)
      (noLeadDigit_fmtObjTail ((k2, v2) :: ms2) l l2 rest) hw1.1]
    simp only [Option.some_bind]
    have h0 : serFmtObjRest ((k2, v2) :: ms2) l ++ (nlIndent l2 ++ '}' :: rest)
        = ',' :: (nlIndent l ++ (serFmtMember (k2, v2) l
            ++ (serFmtObjRest ms2 l ++ (nlIndent l2 ++ '}' :: rest)))) := by
      simp [serFmtObjRest]
    rw [h0, skipWS_cons_not_ws (by decide), List.head?_cons, if_pos rfl,
      List.tail_cons]
    have h1 : skipWS (nlIndent l ++ (serFmtMember (k2, v2) l
        ++ (serFmtObjRest ms2 l ++ (nlIndent l2 ++ '}' :: rest))))
        = serFmtMember (k2, v2) l
          ++ (serFmtObjRest ms2 l ++ (nlIndent l2 ++ '}' :: rest)) := by
      have h2 : serFmtMember (k2, v2) l
          ++ (serFmtObjRest ms2 l ++ (nlIndent l2 ++ '}' :: rest))
          = '"' :: (escList k2.data ++ '"' :: ':' :: ' ' :: serFmt v2 l
              ++ (serFmtObjRest ms2 l ++ (nlIndent l2 ++ '}' :: rest))) := by
        simp [serFmtMember]
      rw [skipWS_append_ws (wsOnly_nlIndent l), h2, skipWS_cons_not_ws (by decide)]
    rw [h1, parseMembers_serFmt k2 v2 ms2 l l2 rest fuel
      (by simp only [pfuelMems] at hf; omega) hw1.2,
      Option.map_some', string_mk_data]
termination_by _k v ms _l _l2 _rest _fuel => 2 + sizeOf v + sizeOf ms

end

/-- Round-trip at the top level: parsing the Format serialization of a
well-formed value gives the value back. -/
theorem parseChars_serFmt (v : JSONValue) (hw : wfVal v = true) :
    parseChars (serFmt v 0) = some v := by
  unfold parseChars
  rw [show parseVal ((serFmt v 0).length + 1) (serFmt v 0)
      = parseVal ((serFmt v 0).length + 1) ([] ++ (serFmt v 0 ++ [])) from by simp]
  rw [parseVal_serFmt v 0 [] [] ((serFmt v 0).length + 1)
    (by intro c hc; simp at hc)
    (le_trans (pfuel_le_serFmt v 0) (by omega)) noLeadDigit_nil hw]
  rfl

theorem insertEntry_keys_mem {k : String} :
    ∀ {acc : List (String × JSONValue)}, k ∈ keysOf acc →
      ∀ v, keysOf (insertEntry acc k v) = keysOf acc := by
  intro acc
  induction acc with
  | nil => intro h; simp [keysOf] at h
  | cons m rest ih =>
    intro hk v
    obtain ⟨k0, v0⟩ := m
    by_cases he : k0 = k
    · rw [insertEntry, if_pos he]
      simp [keysOf]
    · rw [insertEntry, if_neg he]
      have hk2 : k ∈ keysOf rest := by
        simp only [keysOf, List.map_cons, List.mem_cons] at hk
        rcases hk with h | h
        · exact absurd h.symm he
        · exact h
      simp only [keysOf, List.map_cons]
      rw [show List.map Prod.fst (insertEntry rest k v) = keysOf (insertEntry rest k v) from rfl,
        ih hk2 v]
      rfl

theorem insertEntry_wf {acc : List (String × JSONValue)} {k : String}
    {v : JSONValue} (ha : wfMembers acc = true) (hv : wfVal v = true) :
    wfMembers (insertEntry acc k v) = true := by
  induction acc with
  | nil =>
    show wfMembers [(k, v)] = true
    show (wfVal v && wfMembers []) = true
    simp [hv, wfMembers]
  | cons m rest ih =>
    obtain ⟨k0, v0⟩ := m
    have ha2 : (wfVal v0 && wfMembers rest) = true := ha
    rw [Bool.and_eq_true] at ha2
    by_cases he : k0 = k
    · rw [insertEntry, if_pos he]
      show (wfVal v && wfMembers rest) = true
      simp [hv, ha2.2]
    · rw [insertEntry, if_neg he]
      show (wfVal v0 && wfMembers (insertEntry rest k v)) = true
      simp [ha2.1, ih ha2.2]

theorem collapseAux_wf :
    ∀ (ms acc : List (String × JSONValue)),
      wfMembers acc = true → (keysOf acc).Nodup → wfMembers ms = true →
      wfMembers (collapseAux acc ms) = true ∧ (keysOf (collapseAux acc ms)).Nodup := by
  intro ms
  induction ms with
  | nil => intro acc h1 h2 _; exact ⟨h1, h2⟩
  | cons m rest ih =>
    intro acc h1 h2 h3
    obtain ⟨k, v⟩ := m
    have h3c : (wfVal v && wfMembers rest) = true := h3
    rw [Bool.and_eq_true] at h3c
    rw [collapseAux]
    by_cases hk : k ∈ keysOf acc
    · exact ih _ (insertEntry_wf h1 h3c.1)
        (by rw [insertEntry_keys_mem hk v]; exact h2) h3c.2
    · refine ih _ (insertEntry_wf h1 h3c.1) ?_ h3c.2
      rw [insertEntry_notmem hk v]
      simp only [keysOf, List.map_append, List.map_cons, List.map_nil]
      rw [List.nodup_append]
      refine ⟨h2, by simp, ?_⟩
      intro a ha hb
      simp only [List.mem_singleton, List.mem_cons] at hb
      rcases hb with rfl | hb
      · exact hk ha
      · simp at hb

theorem parse_wf : ∀ fuel : Nat,
    (∀ cs v r, parseVal fuel cs = some (v, r) → wfVal v = true) ∧
    (∀ cs es r, parseElems fuel cs = some (es, r) → wfElems es = true) ∧
    (∀ cs ms r, parseMembers fuel cs = some (ms, r) → wfMembers ms = true) := by
  intro fuel
  induction fuel with
  | zero =>
    refine ⟨?_, ?_, ?_⟩ <;> intro cs x r h <;>
      exact absurd h (by simp [parseVal, parseElems, parseMembers])
  | succ fuel ih =>
    obtain ⟨ihv, ihe, ihm⟩ := ih
    refine ⟨?_, ?_, ?_⟩
    · intro cs v r h
      rw [parseVal] at h
      split at h
      · exact absurd h (by simp)
      rename_i x c rest heq
      split_ifs at h with h1 h2 h3 h4 h5 h6 h7 h8
      · split at h
        · simp only [Option.some.injEq, Prod.mk.injEq] at h
          exact h.1 ▸ rfl
        · exact absurd h (by simp)
      · split at h
        · simp only [Option.some.injEq, Prod.mk.injEq] at h
          exact h.1 ▸ rfl
        · exact absurd h (by simp)
      · split at h
        · simp only [Option.some.injEq, Prod.mk.injEq] at h
          exact h.1 ▸ rfl
        · exact absurd h (by simp)
      · simp only [Option.map_eq_some'] at h
        obtain ⟨p, hp, hpe⟩ := h
        simp only [Prod.mk.injEq] at hpe
        exact hpe.1 ▸ rfl
      · simp only [Option.some.injEq, Prod.mk.injEq] at h
        exact h.1 ▸ rfl
      · simp only [Option.map_eq_some'] at h
        obtain ⟨p, hp, hpe⟩ := h
        simp only [Prod.mk.injEq] at hpe
        exact hpe.1 ▸ (show wfVal (.arr p.1) = true from ihe _ _ _ hp)
      · simp only [Option.some.injEq, Prod.mk.injEq] at h
        exact h.1 ▸ rfl
      · simp only [Option.map_eq_some'] at h
        obtain ⟨p, hp, hpe⟩ := h
        simp only [Prod.mk.injEq] at hpe
        have hwm := ihm _ _ _ hp
        have hc := collapseAux_wf p.1 [] (by rfl) (by simp [keysOf]) hwm
        refine hpe.1 ▸ ?_
        show (nodupKeys (keysOf (collapseAux [] p.1)) && wfMembers (collapseAux [] p.1)) = true
        rw [Bool.and_eq_true, nodupKeys_iff]
        exact ⟨hc.2, hc.1⟩
      · simp only [Option.map_eq_some'] at h
        obtain ⟨p, hp, hpe⟩ := h
        simp only [Prod.mk.injEq] at hpe
        exact hpe.1 ▸ rfl
    · intro cs es r h
      rw [parseElems] at h
      rcases hp : parseVal fuel cs with _ | ⟨⟨v2, r2⟩⟩ <;> rw [hp] at h
      · exact absurd h (by simp)
      have hv := ihv _ _ _ hp
      simp only [Option.some_bind] at h
      split_ifs at h with h1 h2
      · simp only [Option.map_eq_some'] at h
        obtain ⟨p, hq, hpe⟩ := h
        simp only [Prod.mk.injEq] at hpe
        have he := ihe _ _ _ hq
        refine hpe.1 ▸ ?_
        show (wfVal v2 && wfElems p.1) = true
        simp [hv, he]
      · simp only [Option.some.injEq, Prod.mk.injEq] at h
        refine h.1 ▸ ?_
        show (wfVal v2 && wfElems []) = true
        simp [hv, wfElems]
    · intro cs ms r h
      rw [parseMembers] at h
      split_ifs at h with h1
      · rcases hp : parseStringBody cs.tail with _ | ⟨⟨k2, r2⟩⟩ <;> rw [hp] at h
        · exact absurd h (by simp)
        simp only [Option.some_bind] at h
        split_ifs at h with h2
        · rcases hq : parseVal fuel (skipWS r2).tail with _ | ⟨⟨v2, r3⟩⟩ <;>
            rw [hq] at h
          · exact absurd h (by simp)
          have hv := ihv _ _ _ hq
          simp only [Option.some_bind] at h
          split_ifs at h with h3 h4
          · simp only [Option.map_eq_some'] at h
            obtain ⟨p, hm, hpe⟩ := h
            simp only [Prod.mk.injEq] at hpe
            have hw := ihm _ _ _ hm
            refine hpe.1 ▸ ?_
            show (wfVal v2 && wfMembers p.1) = true
            simp [hv, hw]
          · simp only [Option.some.injEq, Prod.mk.injEq] at h
            refine h.1 ▸ ?_
            show (wfVal v2 && wfMembers []) = true
            simp [hv, wfMembers]


/-- Extract well-formedness from a successful top-level parse. -/
theorem parseChars_wf {cs : List Char} {v : JSONValue}
    (h : parseChars cs = some v) : wfVal v = true := by
  unfold parseChars at h
  rcases hp : parseVal (cs.length + 1) cs with _ | ⟨⟨v2, r⟩⟩ <;> rw [hp] at h
  · exact absurd h (by simp)
  · simp only at h
    split_ifs at h with h1
    simp only [Option.some.injEq] at h
    exact h ▸ (parse_wf _).1 _ _ _ hp

theorem parseText_wf {t : String} {v : JSONValue}
    (h : parseText t = some v) : wfVal v = true :=
  parseChars_wf h

/-! ## Claim theorems -/

/-- C2: for every text `T` that parses as JSON, parsing the result of
Format(`T`) (re-serialization with 2-space indent) yields a value
structurally equal to `parse(T)`, and likewise parsing the result of
Minify(`T`) (re-serialization with `,`/`:` separators and no surrounding
whitespace) yields a value structurally equal to `parse(T)`. -/
theorem format_minify_reparse (T : String) (v : JSONValue)
    (h : parseText T = some v) :
    parseText (formatCmd T).1 = some v ∧ parseText (minifyCmd T).1 = some v := by
  have hw : wfVal v = true := parseText_wf h
  have hf : (formatCmd T).1 = String.mk (serFmt v 0) := by
    simp [formatCmd, h]
  have hm : (minifyCmd T).1 = String.mk (serMin v) := by
    simp [minifyCmd, h]
  rw [hf, hm]
  exact ⟨parseChars_serFmt v hw, parseChars_serMin v hw⟩

/-- Witness for C2 at the document `[0]`. -/
theorem format_minify_reparse_witness :
    parseText "[0]" = some (.arr [.num 0]) ∧
      parseText (formatCmd "[0]").1 = some (.arr [.num 0]) ∧
      parseText (minifyCmd "[0]").1 = some (.arr [.num 0]) :=
  ⟨by decide, (format_minify_reparse "[0]" (.arr [.num 0]) (by decide)).1,
    (format_minify_reparse "[0]" (.arr [.num 0]) (by decide)).2⟩

/-- C3: on a buffer that does not parse as JSON, each of Format, Minify,
Validate and Save reports an error and leaves the buffer and the file
system unchanged. -/
theorem invalid_commands_preserve_state (buf : String) (fs : Option String)
    (h : parseText buf = none) :
    formatCmd buf = (buf, true) ∧ minifyCmd buf = (buf, true) ∧
      validateCmd buf = (buf, true) ∧ saveCmd buf fs = (fs, true) := by
  simp [formatCmd, minifyCmd, validateCmd, saveCmd, h]

/-- Witness for C3 at buffer `not json`. -/
theorem invalid_commands_preserve_state_witness :
    parseText "not json" = none ∧
      formatCmd "not json" = ("not json", true) ∧
      minifyCmd "not json" = ("not json", true) ∧
      validateCmd "not json" = ("not json", true) ∧
      saveCmd "not json" (some "old") = (some "old", true) := by
  have h : parseText "not json" = none := by decide
  have hc := invalid_commands_preserve_state "not json" (some "old") h
  exact ⟨h, hc.1, hc.2.1, hc.2.2.1, hc.2.2.2⟩

/-- C9: loading settings returns the empty object when the settings file
is absent or its contents fail to parse, and returns the parsed value
unchanged when parsing succeeds. -/
theorem loadSettings_spec :
    loadSettings none = .obj [] ∧
      (∀ txt, parseText txt = none → loadSettings (some txt) = .obj []) ∧
      (∀ txt v, parseText txt = some v → loadSettings (some txt) = v) := by
  refine ⟨rfl, ?_, ?_⟩
  · intro txt h
    simp [loadSettings, h]
  · intro txt v h
    simp [loadSettings, h]

/-- Witness for C9: an absent file, the unparsable text `garbage`, and a
well-formed settings object. -/
theorem loadSettings_spec_witness :
    loadSettings none = .obj [] ∧
      loadSettings (some "garbage") = .obj [] ∧
      loadSettings (some "\x7b\x22last_folder\x22: \x22/tmp\x22\x7d")
        = .obj [("last_folder", .str "/tmp")] :=
  ⟨loadSettings_spec.1,
    loadSettings_spec.2.1 "garbage" (by decide),
    loadSettings_spec.2.2 "\x7b\x22last_folder\x22: \x22/tmp\x22\x7d"
      (.obj [("last_folder", .str "/tmp")]) (by decide)⟩

/-- Tab ids assigned after state `st` are all above `st.tabCounter` and
strictly increasing. -/
theorem runTabOps_ids (ops : List TabOp) :
    ∀ st : TabState, (∀ i ∈ (runTabOps st ops).2, st.tabCounter < i) ∧
      (runTabOps st ops).2.Pairwise (· < ·) := by
  induction ops with
  | nil => intro st; simp [runTabOps]
  | cons op ops ih =>
    intro st
    cases op with
    | newTab =>
      have h1 : applyTabOp st .newTab
          = (⟨st.openTabs ++ [st.tabCounter + 1], st.tabCounter + 1⟩,
            some (st.tabCounter + 1)) := rfl
      rw [runTabOps, h1]
      obtain ⟨iha, ihp⟩ := ih ⟨st.openTabs ++ [st.tabCounter + 1], st.tabCounter + 1⟩
      constructor
      · intro i hi
        simp only [Option.toList_some, List.cons_append, List.nil_append,
          List.mem_cons] at hi
        rcases hi with rfl | hi
        · omega
        · have := iha i hi
          simp only at this
          omega
      · simp only [Option.toList_some, List.cons_append, List.nil_append]
        rw [List.pairwise_cons]
        refine ⟨fun i hi => ?_, ihp⟩
        have := iha i hi
        simp only at this
        exact this
    | closeTab tid confirm =>
      rw [runTabOps]
      by_cases hc : tid ∈ st.openTabs ∧ confirm = true
      · have h1 : applyTabOp st (.closeTab tid confirm)
            = (⟨st.openTabs.erase tid, st.tabCounter⟩, none) := by
          simp [applyTabOp, hc]
        rw [h1]
        obtain ⟨iha, ihp⟩ := ih ⟨st.openTabs.erase tid, st.tabCounter⟩
        exact ⟨by simpa using iha, by simpa using ihp⟩
      · have h1 : applyTabOp st (.closeTab tid confirm) = (st, none) := by
          simp only [applyTabOp]
          rw [if_neg hc]
        rw [h1]
        obtain ⟨iha, ihp⟩ := ih st
        exact ⟨by simpa using iha, by simpa using ihp⟩

/-- C10: within a session the tab identifiers assigned by tab creation
are strictly increasing, so no identifier is ever assigned twice, even
when tabs are closed in between (closing never resets or reuses the
counter). -/
theorem tab_ids_strictly_increasing (ops : List TabOp) :
    (runTabOps initialTabs ops).2.Pairwise (· < ·) ∧
      (runTabOps initialTabs ops).2.Nodup := by
  have h := (runTabOps_ids ops initialTabs).2
  exact ⟨h, h.imp Nat.ne_of_lt⟩


/-- C6: for every text and every path whose final parsed segment is an
array index, the path-to-position resolver returns not-found. -/
theorem array_index_paths_not_located (content path : String) (parts : List Seg)
    (k : Nat) (hp : parsePath path = some parts)
    (hl : parts.getLast? = some (.idx k)) :
    findKeyPositionByPath content path = none := by
  unfold findKeyPositionByPath
  rw [hp]
  cases parts with
  | nil => simp at hl
  | cons p ps => simp only [hl]

theorem array_index_paths_not_located_witness :
    parsePath "a[0]" = some [.key "a", .idx 0] ∧
      findKeyPositionByPath "\x7b\"a\":[1]\x7d" "a[0]" = none :=
  ⟨by decide,
    array_index_paths_not_located "\x7b\"a\":[1]\x7d" "a[0]" [.key "a", .idx 0] 0
      (by decide) (by decide)⟩

theorem keyTagOfNext_iff (o : Option Char) :
    keyTagOfNext o = true ↔ o = some ':' := by
  cases o with
  | none => simp [keyTagOfNext]
  | some c =>
    simp only [keyTagOfNext, Option.some.injEq]
    by_cases hs : pyStrSpace c
    · rw [if_pos hs]
      simp only [List.head?_nil, decide_eq_true_eq]
      constructor
      · intro h
        cases h
      · rintro rfl
        exact absurd hs (by decide)
    · rw [if_neg hs]
      simp

theorem scanSpansAux_key_iff :
    ∀ (fuel : Nat) (cs : List Char) (s e : Nat) (t : Bool),
      (s, e, t) ∈ scanSpansAux fuel cs →
      (t = true ↔ (cs.drop (e + 1)).head? = some ':') := by
  intro fuel
  induction fuel with
  | zero => intro cs s e t h; simp [scanSpansAux] at h
  | succ fuel ih =>
    intro cs s e t hmem
    rcases hp1 : cs.findIdx? (fun c => c = '"') with _ | p
    · rw [scanSpansAux, hp1] at hmem
      simp at hmem
    · rcases hq1 : (cs.drop (p + 1)).findIdx? (fun c => c = '"') with _ | q
      · rw [scanSpansAux, hp1] at hmem
        simp only [] at hmem
        rw [hq1] at hmem
        simp at hmem
      · rw [scanSpansAux, hp1] at hmem
        simp only [] at hmem
        rw [hq1] at hmem
        simp only [] at hmem
        rw [List.mem_cons] at hmem
        rcases hmem with hmem | hmem
        · have he : e = p + 1 + q := congrArg (fun x => x.2.1) hmem
          have ht : t = keyTagOfNext (((cs.drop (p + 1)).drop (q + 1)).head?) :=
            congrArg (fun x => x.2.2) hmem
          have hdrop : ((cs.drop (p + 1)).drop (q + 1))
              = cs.drop (e + 1) := by
            rw [List.drop_drop, he]
            congr 1
          rw [ht, hdrop]
          exact keyTagOfNext_iff _
        · rw [List.mem_map] at hmem
          obtain ⟨⟨s0, e0, t0⟩, hm0, heq⟩ := hmem
          have he : e = e0 + (p + q + 2) := (congrArg (fun x => x.2.1) heq).symm
          have ht : t = t0 := (congrArg (fun x => x.2.2) heq).symm
          rw [ht, ih _ s0 e0 t0 hm0]
          have hdd : ((cs.drop (p + 1)).drop (q + 1)).drop (e0 + 1)
              = cs.drop (e + 1) := by
            rw [List.drop_drop, List.drop_drop, he]
            congr 1
            omega
          rw [hdd]

/-- C4 (amended): in the highlighter's paired-quote scan, a span is
tagged `key` if and only if the character immediately following its
closing quote is `:` (not the next non-space character: whitespace
between the quote and the colon defeats the test). -/
theorem highlight_key_tag_iff_immediate_colon (cs : List Char) (s e : Nat)
    (t : Bool) (hmem : (s, e, t) ∈ scanSpans cs) :
    t = true ↔ (cs.drop (e + 1)).head? = some ':' :=
  scanSpansAux_key_iff cs.length cs s e t hmem

theorem highlight_key_tag_iff_immediate_colon_witness :
    ((0, 2, true) ∈ scanSpans ("\x22a\x22: 1".data)) ∧
      (true = true ↔ ((("\x22a\x22: 1".data).drop 3).head? = some ':')) :=
  ⟨by decide,
    highlight_key_tag_iff_immediate_colon ("\x22a\x22: 1".data) 0 2 true (by decide)⟩

/-- C4 counterexample: in the text `"a" : 1` the next non-space
character after the closing quote of the span `"a"` is `:`, yet the scan
tags the span as a string, because the code inspects only the single
character directly after the quote. -/
theorem highlight_key_rule_counterexample :
    scanSpans ("\x22a\x22 : 1".data) = [(0, 2, false)] ∧
      ((("\x22a\x22 : 1".data).drop 3).dropWhile pyStrSpace).head? = some ':' := by
  decide


/-- C7: when the target path reaches no node of the parsed document (or
the parse itself fails), the occurrence computation falls back to index
0, so the resolver returns the span of the first textual occurrence of
the final key name (when one exists) instead of not-found. -/
theorem stale_path_first_occurrence_fallback (content path : String)
    (parts : List Seg) (tkey : String) (ln col : Nat) (more : List (Nat × Nat))
    (hpp : parsePath path = some parts)
    (hlast : parts.getLast? = some (.key tkey))
    (hmiss : parseText content = none ∨
      ∃ data, parseText content = some data ∧ (travVal tkey parts data [] 0).2 = none)
    (hkp : keyPositionsList content tkey = (ln, col) :: more) :
    findPathOccurrence content path = 0 ∧
      findKeyPositionByPath content path
        = some ((ln, col), (ln, col + tkey.length + 2)) := by
  have hocc : findPathOccurrence content path = 0 := by
    unfold findPathOccurrence
    rcases hmiss with hmiss | ⟨data, hdata, htr⟩
    · rw [hmiss]
    · rw [hdata, hpp]
      cases parts with
      | nil => simp at hlast
      | cons p ps =>
        simp only [hlast]
        rcases htr2 : travVal tkey (p :: ps) data [] 0 with ⟨cnt, found⟩
        rw [htr2] at htr
        simp only at htr
        subst htr
        simp
  refine ⟨hocc, ?_⟩
  unfold findKeyPositionByPath
  rw [hpp]
  cases parts with
  | nil => simp at hlast
  | cons p ps =>
    simp only [hlast]
    rw [hocc, hkp]
    rfl

theorem stale_path_first_occurrence_fallback_witness :
    parsePath "b.x" = some [.key "b", .key "x"] ∧
      (∃ data, parseText "\x7b\"a\":\x7b\"x\":1\x7d\x7d" = some data ∧
        (travVal "x" [.key "b", .key "x"] data [] 0).2 = none) ∧
      keyPositionsList "\x7b\"a\":\x7b\"x\":1\x7d\x7d" "x" = [(1, 6)] ∧
      findPathOccurrence "\x7b\"a\":\x7b\"x\":1\x7d\x7d" "b.x" = 0 ∧
      findKeyPositionByPath "\x7b\"a\":\x7b\"x\":1\x7d\x7d" "b.x"
        = some ((1, 6), (1, 9)) := by
  refine ⟨by decide, ⟨.obj [("a", .obj [("x", .num 1)])], by decide, by decide⟩,
    by decide, ?_⟩
  exact stale_path_first_occurrence_fallback "\x7b\"a\":\x7b\"x\":1\x7d\x7d" "b.x"
    [.key "b", .key "x"] "x" 1 6 []
    (by decide) (by decide)
    (Or.inr ⟨.obj [("a", .obj [("x", .num 1)])], by decide, by decide⟩)
    (by decide)

theorem countKey_nil (tk : String) : countKey tk [] = 0 := rfl

theorem countKey_cons (tk : String) (e : List Seg × String)
    (l : List (List Seg × String)) :
    countKey tk (e :: l) = (if e.2 = tk then 1 else 0) + countKey tk l := by
  simp only [countKey, List.filter_cons]
  by_cases h : e.2 = tk
  · simp [h, Nat.add_comm]
  · simp [h]

theorem specTrav_append (tk : String) (tp : List Seg)
    (l1 l2 : List (List Seg × String)) : ∀ cnt,
    specTrav tk tp (l1 ++ l2) cnt =
      match specTrav tk tp l1 cnt with
      | (c, some i) => (c, some i)
      | (c, none) => specTrav tk tp l2 c := by
  induction l1 with
  | nil => intro cnt; simp [specTrav]
  | cons e rest ih =>
    intro cnt
    rw [List.cons_append, specTrav, specTrav]
    by_cases h : e.1 = tp
    · rw [if_pos h, if_pos h]
    · rw [if_neg h, if_neg h, ih]

theorem specTrav_found (tk : String) (tp : List Seg) :
    ∀ (l : List (List Seg × String)) (j cnt : Nat),
      l.findIdx? (fun e => e.1 = tp) = some j →
      specTrav tk tp l cnt
        = (cnt + countKey tk (l.take j), some (cnt + countKey tk (l.take j))) := by
  intro l
  induction l with
  | nil => intro j cnt h; simp at h
  | cons e rest ih =>
    intro j cnt h
    rw [List.findIdx?_cons] at h
    by_cases he : e.1 = tp
    · simp only [he, decide_True, if_true, Option.some.injEq] at h
      subst h
      rw [specTrav, if_pos he]
      have h0 : countKey tk (List.take 0 (e :: rest)) = 0 := rfl
      rw [h0]
      simp
    · rw [List.findIdx?_succ] at h
      simp only [he, decide_False, Bool.false_eq_true, if_false, Option.map_eq_some'] at h
      obtain ⟨j2, hj2, hj⟩ := h
      subst hj
      rw [specTrav, if_neg he, ih j2 _ hj2]
      rw [List.take_succ_cons, countKey_cons]
      by_cases hk : e.2 = tk
      · rw [if_pos hk, if_pos hk]
        have : cnt + 1 + countKey tk (List.take j2 rest)
            = cnt + (1 + countKey tk (List.take j2 rest)) := by omega
        rw [this]
      · rw [if_neg hk, if_neg hk]
        have : countKey tk (List.take j2 rest)
            = 0 + countKey tk (List.take j2 rest) := by omega
        rw [← this]

mutual

theorem dfsKeys_last : (v : JSONValue) → (cur : List Seg) →
    ∀ e ∈ dfsKeys v cur, e.1.getLast? = some (.key e.2)
  | .obj ms, cur => by
    rw [dfsKeys]; exact dfsKeysMembers_last ms cur
  | .arr es, cur => by
    rw [dfsKeys]; exact dfsKeysElems_last es 0 cur
  | .null, cur => fun e he => absurd he (List.not_mem_nil e)
  | .bool b, cur => fun e he => absurd he (List.not_mem_nil e)
  | .num n, cur => fun e he => absurd he (List.not_mem_nil e)
  | .str s, cur => fun e he => absurd he (List.not_mem_nil e)

theorem dfsKeysMembers_last : (ms : List (String × JSONValue)) → (cur : List Seg) →
    ∀ e ∈ dfsKeysMembers ms cur, e.1.getLast? = some (.key e.2)
  | [], cur => by rw [dfsKeysMembers]; intro e he; simp at he
  | (k, v) :: rest, cur => by
    rw [dfsKeysMembers]
    intro e he
    rcases List.mem_cons.mp he with h | h
    · subst h
      simp [List.getLast?_concat]
    · rcases List.mem_append.mp h with h2 | h2
      · by_cases hc : v.isContainer
        · rw [if_pos hc] at h2
          exact dfsKeys_last v (cur ++ [Seg.key k]) e h2
        · rw [if_neg hc] at h2; simp at h2
      · exact dfsKeysMembers_last rest cur e h2

theorem dfsKeysElems_last : (es : List JSONValue) → (i : Nat) → (cur : List Seg) →
    ∀ e ∈ dfsKeysElems es i cur, e.1.getLast? = some (.key e.2)
  | [], i, cur => by rw [dfsKeysElems]; intro e he; simp at he
  | item :: rest, i, cur => by
    rw [dfsKeysElems]
    intro e he
    rcases List.mem_append.mp he with h2 | h2
    · by_cases hc : item.isContainer
      · rw [if_pos hc] at h2
        exact dfsKeys_last item (cur ++ [Seg.idx i]) e h2
      · rw [if_neg hc] at h2; simp at h2
    · exact dfsKeysElems_last rest (i + 1) cur e h2

end

mutual

theorem travVal_eq_spec (tk : String) (tp : List Seg) :
    (v : JSONValue) → (cur : List Seg) → (cnt : Nat) →
    (∀ e ∈ dfsKeys v cur, e.1 = tp → e.2 = tk) →
    travVal tk tp v cur cnt = specTrav tk tp (dfsKeys v cur) cnt
  | .obj ms, cur, cnt, H => by
    rw [travVal, dfsKeys]
    rw [dfsKeys] at H
    exact travMembers_eq_spec tk tp ms cur cnt H
  | .arr es, cur, cnt, H => by
    rw [travVal, dfsKeys]
    rw [dfsKeys] at H
    exact travElems_eq_spec tk tp es 0 cur cnt H
  | .null, cur, cnt, _ => rfl
  | .bool b, cur, cnt, _ => rfl
  | .num n, cur, cnt, _ => rfl
  | .str s, cur, cnt, _ => rfl

theorem travMembers_eq_spec (tk : String) (tp : List Seg) :
    (ms : List (String × JSONValue)) → (cur : List Seg) → (cnt : Nat) →
    (∀ e ∈ dfsKeysMembers ms cur, e.1 = tp → e.2 = tk) →
    travMembers tk tp ms cur cnt = specTrav tk tp (dfsKeysMembers ms cur) cnt
  | [], cur, cnt, _ => by rw [travMembers, dfsKeysMembers, specTrav]
  | (k, v) :: rest, cur, cnt, H => by
    have Hhead : (cur ++ [Seg.key k], k) ∈ dfsKeysMembers ((k, v) :: rest) cur := by
      rw [dfsKeysMembers]; exact List.mem_cons_self _ _
    have Hrest : ∀ e ∈ dfsKeysMembers rest cur, e.1 = tp → e.2 = tk := by
      intro e he
      refine H e ?_
      rw [dfsKeysMembers]
      exact List.mem_cons_of_mem _ (List.mem_append_right _ he)
    rw [travMembers, dfsKeysMembers, specTrav]
    by_cases hp : cur ++ [Seg.key k] = tp
    · have hk : k = tk := H _ Hhead hp
      rw [if_pos ⟨hk, hp⟩, if_pos hp]
    · rw [if_neg (fun h => hp h.2), if_neg hp]
      by_cases hc : v.isContainer
      · have Hsub : ∀ e ∈ dfsKeys v (cur ++ [Seg.key k]), e.1 = tp → e.2 = tk := by
          intro e he
          refine H e ?_
          rw [dfsKeysMembers]
          refine List.mem_cons_of_mem _ (List.mem_append_left _ ?_)
          rwa [if_pos hc]
        rw [if_pos hc, if_pos hc, specTrav_append,
          travVal_eq_spec tk tp v (cur ++ [Seg.key k])
            (if k = tk then cnt + 1 else cnt) Hsub]
        rcases hres : specTrav tk tp (dfsKeys v (cur ++ [Seg.key k]))
            (if k = tk then cnt + 1 else cnt) with ⟨c2, oi⟩
        cases oi with
        | some i => rfl
        | none => exact travMembers_eq_spec tk tp rest cur c2 Hrest
      · rw [if_neg hc, if_neg hc, List.nil_append]
        exact travMembers_eq_spec tk tp rest cur _ Hrest

theorem travElems_eq_spec (tk : String) (tp : List Seg) :
    (es : List JSONValue) → (i : Nat) → (cur : List Seg) → (cnt : Nat) →
    (∀ e ∈ dfsKeysElems es i cur, e.1 = tp → e.2 = tk) →
    travElems tk tp es i cur cnt = specTrav tk tp (dfsKeysElems es i cur) cnt
  | [], i, cur, cnt, _ => by rw [travElems, dfsKeysElems, specTrav]
  | item :: rest, i, cur, cnt, H => by
    have Hrest : ∀ e ∈ dfsKeysElems rest (i + 1) cur, e.1 = tp → e.2 = tk := by
      intro e he
      refine H e ?_
      rw [dfsKeysElems]
      exact List.mem_append_right _ he
    rw [travElems, dfsKeysElems]
    by_cases hc : item.isContainer
    · have Hsub : ∀ e ∈ dfsKeys item (cur ++ [Seg.idx i]), e.1 = tp → e.2 = tk := by
        intro e he
        refine H e ?_
        rw [dfsKeysElems]
        refine List.mem_append_left _ ?_
        rwa [if_pos hc]
      rw [if_pos hc, if_pos hc, specTrav_append,
        travVal_eq_spec tk tp item (cur ++ [Seg.idx i]) cnt Hsub]
      rcases hres : specTrav tk tp (dfsKeys item (cur ++ [Seg.idx i])) cnt with ⟨c2, oi⟩
      cases oi with
      | some j => rfl
      | none => exact travElems_eq_spec tk tp rest (i + 1) cur c2 Hrest
    · rw [if_neg hc, if_neg hc, List.nil_append]
      exact travElems_eq_spec tk tp rest (i + 1) cur cnt Hrest

end

/-- C1: for a parsing document and a path ending in an object key, the
occurrence index computed by `_find_path_occurrence` equals the number of
same-named key events strictly before the first depth-first key event
whose accumulated path is the target (keys in declaration order, checked
before recursing, arrays element by element); in particular for the
document from the spec and path `b.x` the index is 1 and the second
textual occurrence of `"x"` is selected. -/
theorem occurrence_index_counts_prior_same_keys
    (content path : String) (data : JSONValue) (parts : List Seg)
    (tkey : String) (j : Nat)
    (hdata : parseText content = some data)
    (hparts : parsePath path = some parts)
    (hlast : parts.getLast? = some (.key tkey))
    (hfind : (dfsKeys data []).findIdx? (fun e => e.1 = parts) = some j) :
    findPathOccurrence content path = countKey tkey ((dfsKeys data []).take j) ∧
    findPathOccurrence "\x7b\"a\":\x7b\"x\":1\x7d,\"b\":\x7b\"x\":2\x7d\x7d" "b.x" = 1 ∧
    findKeyPositionByPath "\x7b\"a\":\x7b\"x\":1\x7d,\"b\":\x7b\"x\":2\x7d\x7d" "b.x"
      = some ((1, 18), (1, 21)) := by
  refine ⟨?_, by decide, by decide⟩
  have hkeys : ∀ e ∈ dfsKeys data [], e.1 = parts → e.2 = tkey := by
    intro e he hp
    have h1 := dfsKeys_last data [] e he
    rw [hp] at h1
    have h2 := hlast.symm.trans h1
    simp at h2
    exact h2.symm
  simp only [findPathOccurrence, hdata, hparts, hlast]
  rw [travVal_eq_spec tkey parts data [] 0 hkeys,
    specTrav_found tkey parts _ j 0 hfind]
  simp

theorem occurrence_index_counts_prior_same_keys_witness :
    findPathOccurrence "\x7b\"a\":\x7b\"x\":1\x7d,\"b\":\x7b\"x\":2\x7d\x7d" "b.x"
      = countKey "x"
        ((dfsKeys (.obj [("a", .obj [("x", .num 1)]),
          ("b", .obj [("x", .num 2)])]) []).take 3) ∧
    findPathOccurrence "\x7b\"a\":\x7b\"x\":1\x7d,\"b\":\x7b\"x\":2\x7d\x7d" "b.x" = 1 ∧
    findKeyPositionByPath "\x7b\"a\":\x7b\"x\":1\x7d,\"b\":\x7b\"x\":2\x7d\x7d" "b.x"
      = some ((1, 18), (1, 21)) :=
  occurrence_index_counts_prior_same_keys _ "b.x"
    (.obj [("a", .obj [("x", .num 1)]), ("b", .obj [("x", .num 2)])])
    [.key "b", .key "x"] "x" 3
    (by decide) (by decide) (by decide) (by decide)

theorem posAnnMembers_segs_ne_nil :
    ∀ (ms : List (String × JSONValue)) (t : Seg × List Seg × JSONValue),
      t ∈ posAnnMembers ms → t.2.1 ≠ [] := by
  intro ms
  induction ms with
  | nil => intro t ht; rw [posAnnMembers] at ht; simp at ht
  | cons m rest ih =>
    obtain ⟨k, v⟩ := m
    intro t ht
    rw [posAnnMembers] at ht
    rcases List.mem_cons.mp ht with h | h
    · subst h; simp
    · rcases List.mem_append.mp h with h2 | h2
      · obtain ⟨t0, _, rfl⟩ := List.mem_map.mp h2
        simp
      · exact ih t h2

theorem posAnnElems_segs_ne_nil :
    ∀ (es : List JSONValue) (i : Nat) (t : Seg × List Seg × JSONValue),
      t ∈ posAnnElems es i → t.2.1 ≠ [] := by
  intro es
  induction es with
  | nil => intro i t ht; rw [posAnnElems] at ht; simp at ht
  | cons item rest ih =>
    intro i t ht
    rw [posAnnElems] at ht
    rcases List.mem_cons.mp ht with h | h
    · subst h; simp
    · rcases List.mem_append.mp h with h2 | h2
      · obtain ⟨t0, _, rfl⟩ := List.mem_map.mp h2
        simp
      · exact ih (i + 1) t h2

theorem posAnn_segs_ne_nil (v : JSONValue) (t : Seg × List Seg × JSONValue)
    (ht : t ∈ posAnn v) : t.2.1 ≠ [] := by
  cases v with
  | obj ms => rw [posAnn] at ht; exact posAnnMembers_segs_ne_nil ms t ht
  | arr es => rw [posAnn] at ht; exact posAnnElems_segs_ne_nil es 0 t ht
  | null => exact absurd ht (List.not_mem_nil t)
  | bool b => exact absurd ht (List.not_mem_nil t)
  | num n => exact absurd ht (List.not_mem_nil t)
  | str s => exact absurd ht (List.not_mem_nil t)

theorem mkNode_shift_key (level : Nat) (path : String) (k : String)
    (t : Seg × List Seg × JSONValue) (h : t.2.1 ≠ []) :
    mkNode level path (t.1, Seg.key k :: t.2.1, t.2.2)
      = mkNode (level + 1) (pathJoin path k) t := by
  obtain ⟨s, segs, u⟩ := t
  have hl : 0 < segs.length := List.length_pos.mpr h
  rw [mkNode, mkNode]
  by_cases hc : u.isContainer
  · rw [if_pos hc, if_pos hc, renderFrom]
    rfl
  · rw [if_neg hc, if_neg hc, renderFrom]
    have : level + ((Seg.key k :: segs).length - 1)
        = level + 1 + (segs.length - 1) := by
      simp only [List.length_cons]; omega
    rw [this]
    rfl

theorem mkNode_shift_idx (level : Nat) (path : String) (i : Nat)
    (t : Seg × List Seg × JSONValue) (h : t.2.1 ≠ []) :
    mkNode level path (t.1, Seg.idx i :: t.2.1, t.2.2)
      = mkNode (level + 1) (pathIdx path i) t := by
  obtain ⟨s, segs, u⟩ := t
  have hl : 0 < segs.length := List.length_pos.mpr h
  rw [mkNode, mkNode]
  by_cases hc : u.isContainer
  · rw [if_pos hc, if_pos hc, renderFrom]
    rfl
  · rw [if_neg hc, if_neg hc, renderFrom]
    have : level + ((Seg.idx i :: segs).length - 1)
        = level + 1 + (segs.length - 1) := by
      simp only [List.length_cons]; omega
    rw [this]
    rfl

mutual

theorem addNode_eq_map (tkv : JSONValue) : (level : Nat) → (path : String) →
    addNode tkv level path = (posAnn tkv).map (mkNode level path) := by
  cases tkv with
  | obj ms =>
    intro level path
    rw [addNode, posAnn]
    exact addNodeMembers_eq_map ms level path
  | arr es =>
    intro level path
    rw [addNode, posAnn]
    exact addNodeElems_eq_map es 0 level path
  | null => intro level path; rfl
  | bool b => intro level path; rfl
  | num n => intro level path; rfl
  | str s => intro level path; rfl

theorem addNodeMembers_eq_map (ms : List (String × JSONValue)) :
    (level : Nat) → (path : String) →
    addNodeMembers ms level path = (posAnnMembers ms).map (mkNode level path) := by
  cases ms with
  | nil => intro level path; rfl
  | cons m rest =>
    obtain ⟨k, v⟩ := m
    intro level path
    rw [addNodeMembers, posAnnMembers, List.map_cons, List.map_append, List.map_map]
    by_cases hc : v.isContainer
    · rw [if_pos hc]
      have hhead : (⟨folderMark ++ k, pathJoin path k, "key"⟩ : NodeRec)
          = mkNode level path (Seg.key k, [Seg.key k], v) := by
        rw [mkNode, if_pos hc, renderFrom, renderFrom]
        rfl
      rw [hhead, addNode_eq_map v (level + 1) (pathJoin path k),
        addNodeMembers_eq_map rest level path]
      have hmap : (posAnn v).map (mkNode (level + 1) (pathJoin path k))
          = (posAnn v).map
            (mkNode level path ∘ fun t => (t.1, Seg.key k :: t.2.1, t.2.2)) := by
        refine List.map_congr_left ?_
        intro t ht
        exact (mkNode_shift_key level path k t (posAnn_segs_ne_nil v t ht)).symm
      rw [hmap]
    · rw [if_neg hc]
      have hhead : (⟨k ++ "  :  " ++ truncLabel (pyStr v), pathJoin path k,
          leafTag level⟩ : NodeRec)
          = mkNode level path (Seg.key k, [Seg.key k], v) := by
        rw [mkNode, if_neg hc, renderFrom, renderFrom]
        rfl
      rw [hhead, addNodeMembers_eq_map rest level path]
      have hv : posAnn v = [] := by
        cases v with
        | obj ms2 => exact absurd rfl hc
        | arr es2 => exact absurd rfl hc
        | null => rfl
        | bool b => rfl
        | num n => rfl
        | str s => rfl
      rw [hv]
      rfl

theorem addNodeElems_eq_map (es : List JSONValue) :
    (i : Nat) → (level : Nat) → (path : String) →
    addNodeElems es i level path = (posAnnElems es i).map (mkNode level path) := by
  cases es with
  | nil => intro i level path; rfl
  | cons item rest =>
    intro i level path
    rw [addNodeElems, posAnnElems, List.map_cons, List.map_append, List.map_map]
    by_cases hc : item.isContainer
    · rw [if_pos hc]
      have hhead : (⟨folderMark ++ "[" ++ natStr i ++ "]", pathIdx path i, "key"⟩ : NodeRec)
          = mkNode level path (Seg.idx i, [Seg.idx i], item) := by
        rw [mkNode, if_pos hc, renderFrom, renderFrom]
        simp [segText, renderSeg, String.append_assoc]
      rw [hhead, addNode_eq_map item (level + 1) (pathIdx path i),
        addNodeElems_eq_map rest (i + 1) level path]
      have hmap : (posAnn item).map (mkNode (level + 1) (pathIdx path i))
          = (posAnn item).map
            (mkNode level path ∘ fun t => (t.1, Seg.idx i :: t.2.1, t.2.2)) := by
        refine List.map_congr_left ?_
        intro t ht
        exact (mkNode_shift_idx level path i t (posAnn_segs_ne_nil item t ht)).symm
      rw [hmap]
    · rw [if_neg hc]
      have hhead : (⟨"[" ++ natStr i ++ "]" ++ "  :  " ++ truncLabel (pyStr item),
          pathIdx path i, leafTag level⟩ : NodeRec)
          = mkNode level path (Seg.idx i, [Seg.idx i], item) := by
        rw [mkNode, if_neg hc, renderFrom, renderFrom]
        rfl
      rw [hhead, addNodeElems_eq_map rest (i + 1) level path]
      have hv : posAnn item = [] := by
        cases item with
        | obj ms2 => exact absurd rfl hc
        | arr es2 => exact absurd rfl hc
        | null => rfl
        | bool b => rfl
        | num n => rfl
        | str s => rfl
      rw [hv]
      rfl

end


theorem lookupKey_mem : ∀ (ms : List (String × JSONValue)) (k : String)
    (w : JSONValue), lookupKey ms k = some w → k ∈ keysOf ms := by
  intro ms
  induction ms with
  | nil => intro k w h; rw [lookupKey] at h; simp at h
  | cons m rest ih =>
    obtain ⟨k0, v0⟩ := m
    intro k w h
    rw [lookupKey] at h
    by_cases he : k0 = k
    · subst he; simp [keysOf]
    · rw [if_neg he] at h
      simp only [keysOf, List.map_cons]
      exact List.mem_cons_of_mem _ (ih k w h)

mutual

theorem posAnn_valueAt (v : JSONValue) : wfVal v = true →
    ∀ t ∈ posAnn v, valueAt v t.2.1 = some t.2.2 := by
  cases v with
  | obj ms =>
    intro hwf t ht
    rw [wfVal, Bool.and_eq_true] at hwf
    rw [posAnn] at ht
    obtain ⟨k, segs', w, h1, h2, h3⟩ :=
      posAnnMembers_valueAt ms hwf.1 hwf.2 t ht
    rw [h1, valueAt]
    simp only [h2]
    exact h3
  | arr es =>
    intro hwf t ht
    rw [wfVal] at hwf
    rw [posAnn] at ht
    obtain ⟨j, segs', w, h1, hij, h2, h3⟩ :=
      posAnnElems_valueAt es 0 hwf t ht
    rw [Nat.sub_zero] at h2
    rw [h1, valueAt]
    simp only [h2]
    exact h3
  | null => intro _ t ht; exact absurd ht (List.not_mem_nil t)
  | bool b => intro _ t ht; exact absurd ht (List.not_mem_nil t)
  | num n => intro _ t ht; exact absurd ht (List.not_mem_nil t)
  | str s => intro _ t ht; exact absurd ht (List.not_mem_nil t)

theorem posAnnMembers_valueAt (ms : List (String × JSONValue)) :
    nodupKeys (keysOf ms) = true → wfMembers ms = true →
    ∀ t ∈ posAnnMembers ms,
      ∃ k segs' w, t.2.1 = Seg.key k :: segs' ∧ lookupKey ms k = some w ∧
        valueAt w segs' = some t.2.2 := by
  cases ms with
  | nil => intro _ _ t ht; exact absurd ht (List.not_mem_nil t)
  | cons m rest =>
    obtain ⟨k0, v0⟩ := m
    intro hnd hwf t ht
    simp only [keysOf, List.map_cons] at hnd
    rw [nodupKeys, Bool.and_eq_true] at hnd
    rw [wfMembers, Bool.and_eq_true] at hwf
    rw [posAnnMembers] at ht
    rcases List.mem_cons.mp ht with h | h
    · subst h
      refine ⟨k0, [], v0, rfl, ?_, rfl⟩
      rw [lookupKey, if_pos rfl]
    · rcases List.mem_append.mp h with h2 | h2
      · obtain ⟨t0, ht0, rfl⟩ := List.mem_map.mp h2
        refine ⟨k0, t0.2.1, v0, rfl, ?_, ?_⟩
        · rw [lookupKey, if_pos rfl]
        · exact posAnn_valueAt v0 hwf.1 t0 ht0
      · obtain ⟨k1, segs', w, h1, h2l, h3⟩ :=
          posAnnMembers_valueAt rest hnd.2 hwf.2 t h2
        have hk1 : k1 ∈ keysOf rest := lookupKey_mem rest k1 w h2l
        have hne : k0 ≠ k1 := by
          intro he
          exact absurd (he ▸ hk1) ((strNotIn_iff k0 (keysOf rest)).mp hnd.1)
        refine ⟨k1, segs', w, h1, ?_, h3⟩
        rw [lookupKey, if_neg hne]
        exact h2l

theorem posAnnElems_valueAt (es : List JSONValue) : (i : Nat) →
    wfElems es = true →
    ∀ t ∈ posAnnElems es i,
      ∃ j segs' w, t.2.1 = Seg.idx j :: segs' ∧ i ≤ j ∧
        es.get? (j - i) = some w ∧ valueAt w segs' = some t.2.2 := by
  cases es with
  | nil => intro i _ t ht; exact absurd ht (List.not_mem_nil t)
  | cons item rest =>
    intro i hwf t ht
    rw [wfElems, Bool.and_eq_true] at hwf
    rw [posAnnElems] at ht
    rcases List.mem_cons.mp ht with h | h
    · subst h
      exact ⟨i, [], item, rfl, Nat.le_refl i, by simp, rfl⟩
    · rcases List.mem_append.mp h with h2 | h2
      · obtain ⟨t0, ht0, rfl⟩ := List.mem_map.mp h2
        refine ⟨i, t0.2.1, item, rfl, Nat.le_refl i, by simp, ?_⟩
        exact posAnn_valueAt item hwf.1 t0 ht0
      · obtain ⟨j, segs', w, h1, hij, h2g, h3⟩ :=
          posAnnElems_valueAt rest (i + 1) hwf.2 t h2
        refine ⟨j, segs', w, h1, Nat.le_trans (Nat.le_succ i) hij, ?_, h3⟩
        have hji : j - i = (j - (i + 1)) + 1 := by omega
        rw [hji, List.get?_cons_succ]
        exact h2g

end


theorem digit_ne_rbracket {c : Char} (h : isDigitC c = true) : c ≠ ']' := by
  simp only [isDigitC, Bool.and_eq_true, decide_eq_true_eq] at h
  intro he
  subst he
  have h93 : (']').toNat = 93 := by decide
  omega

theorem goodKey_props {k : String} (h : goodKey k = true) :
    k.data ≠ [] ∧ ∀ c ∈ k.data, c ≠ '.' ∧ c ≠ '[' ∧ c ≠ ']' := by
  rw [goodKey, Bool.and_eq_true] at h
  obtain ⟨h1, h2⟩ := h
  refine ⟨by simpa using h1, ?_⟩
  intro c hc
  have h3 := List.all_eq_true.mp h2 c hc
  simp only [Bool.and_eq_true, decide_eq_true_eq] at h3
  exact ⟨h3.1.1, h3.1.2, h3.2⟩

theorem parsePathAux_key (kchars : List Char)
    (hk : ∀ c ∈ kchars, c ≠ '.' ∧ c ≠ '[') :
    ∀ (fuel : Nat) (tail current : List Char) (acc : List Seg),
      parsePathAux (kchars.length + fuel) (kchars ++ tail) current acc
        = parsePathAux fuel tail (current ++ kchars) acc := by
  induction kchars with
  | nil =>
    intro fuel tail current acc
    simp
  | cons c ks ih =>
    intro fuel tail current acc
    have hc := hk c (List.mem_cons_self c ks)
    have hlen : (c :: ks).length + fuel = (ks.length + fuel) + 1 := by
      simp only [List.length_cons]; omega
    rw [hlen, List.cons_append, parsePathAux, if_neg hc.1, if_neg hc.2,
      ih (fun d hd => hk d (List.mem_cons_of_mem c hd)) fuel tail (current ++ [c]) acc]
    simp

theorem parsePathAux_sufRender : ∀ (segs : List Seg), goodSegs segs = true →
    ∀ (extra : Nat) (current : List Char) (acc : List Seg),
      parsePathAux ((sufRender segs).length + extra) (sufRender segs) current acc
        = some ((acc ++ flushKey current) ++ segs) := by
  intro segs
  induction segs with
  | nil =>
    intro _ extra current acc
    rw [sufRender, parsePathAux]
    simp
  | cons s rest ih =>
    intro hgood extra current acc
    rw [goodSegs, List.all_cons, Bool.and_eq_true] at hgood
    obtain ⟨hs, hrest⟩ := hgood
    cases s with
    | key k =>
      have hs2 : goodKey k = true := hs
      obtain ⟨hne, hchars⟩ := goodKey_props hs2
      have hk : ∀ c ∈ k.data, c ≠ '.' ∧ c ≠ '[' :=
        fun c hc => ⟨(hchars c hc).1, (hchars c hc).2.1⟩
      rw [sufRender]
      have hlen : ('.' :: (k.data ++ sufRender rest)).length + extra
          = (k.data.length + ((sufRender rest).length + extra)) + 1 := by
        simp only [List.length_cons, List.length_append]; omega
      rw [hlen, parsePathAux, if_pos rfl,
        parsePathAux_key k.data hk ((sufRender rest).length + extra)
          (sufRender rest) [] (acc ++ flushKey current),
        List.nil_append, ih hrest extra k.data (acc ++ flushKey current)]
      have hflush : flushKey k.data = [Seg.key k] := by
        rw [flushKey, if_neg hne, string_mk_data]
      rw [hflush, List.append_assoc, List.singleton_append]
    | idx i =>
      rw [sufRender]
      have hlen : ('[' :: (natDigits i ++ (']' :: sufRender rest))).length + extra
          = ((sufRender rest).length + ((natDigits i).length + 1 + extra)) + 1 := by
        simp only [List.length_cons, List.length_append]; omega
      rw [hlen, parsePathAux, if_neg (by decide : ¬('[' : Char) = '.'), if_pos rfl]
      have htake : (natDigits i ++ (']' :: sufRender rest)).takeWhile
          (fun d => d ≠ ']') = natDigits i := by
        refine takeWhile_append_all ?_ ?_
        · intro c hc
          simp only [ne_eq, decide_not, Bool.not_eq_true]
          simpa using digit_ne_rbracket (natDigits_all_digits i c hc)
        · intro c hc
          simp only [List.head?_cons, Option.some.injEq] at hc
          subst hc
          decide
      rw [htake]
      have hint : pyInt (natDigits i) = some i := by
        rw [pyInt, if_pos ⟨natDigits_ne_nil i, List.all_eq_true.mpr
          (fun c hc => natDigits_all_digits i c hc)⟩]
        rw [digitsVal_natDigits i 0]
        simp
      rw [hint]
      simp only [List.drop_left, List.drop_succ_cons, List.drop_zero]
      rw [ih hrest ((natDigits i).length + 1 + extra) []
        ((acc ++ flushKey current) ++ [Seg.idx i])]
      have hflush : flushKey [] = ([] : List Seg) := rfl
      rw [hflush, List.append_nil, List.append_assoc, List.singleton_append]


theorem renderFrom_data : ∀ (segs : List Seg) (path : String), path.data ≠ [] →
    (renderFrom path segs).data = path.data ++ sufRender segs := by
  intro segs
  induction segs with
  | nil => intro path _; rw [renderFrom, sufRender, List.append_nil]
  | cons s rest ih =>
    intro path hpath
    have hdot : (".").data = ['.'] := rfl
    have hlb : ("[").data = ['['] := rfl
    have hrb : ("]").data = [']'] := rfl
    cases s with
    | key k =>
      have hne : ¬path = "" := fun h => hpath (by rw [h])
      rw [renderFrom, sufRender]
      have hseg : renderSeg path (Seg.key k) = path ++ "." ++ k := by
        rw [renderSeg, pathJoin, if_neg hne]
      rw [hseg, ih (path ++ "." ++ k)
        (by simp [String.data_append, hdot, hpath])]
      simp [String.data_append, hdot]
    | idx i =>
      rw [renderFrom, sufRender]
      have hnat : (natStr i).data = natDigits i := rfl
      have hseg : renderSeg path (Seg.idx i) = path ++ "[" ++ natStr i ++ "]" := by
        rw [renderSeg, pathIdx]
      rw [hseg, ih (path ++ "[" ++ natStr i ++ "]")
        (by simp [String.data_append, hlb, hrb, hnat, hpath])]
      simp [String.data_append, hlb, hrb, hnat]

theorem parsePath_renderFrom (segs : List Seg) (hgood : goodSegs segs = true) :
    parsePath (renderFrom "" segs) = some segs := by
  cases segs with
  | nil => rfl
  | cons s rest =>
    rw [goodSegs, List.all_cons, Bool.and_eq_true] at hgood
    obtain ⟨hs, hrest⟩ := hgood
    cases s with
    | key k =>
      have hs2 : goodKey k = true := hs
      obtain ⟨hne, hchars⟩ := goodKey_props hs2
      have hk : ∀ c ∈ k.data, c ≠ '.' ∧ c ≠ '[' :=
        fun c hc => ⟨(hchars c hc).1, (hchars c hc).2.1⟩
      rw [renderFrom]
      have hseg : renderSeg "" (Seg.key k) = k := by
        rw [renderSeg, pathJoin, if_pos rfl]
      rw [hseg]
      have hdata : (renderFrom k rest).data = k.data ++ sufRender rest :=
        renderFrom_data rest k hne
      have hnon : ¬renderFrom k rest = "" := by
        intro h
        rw [h] at hdata
        have h2 : k.data = [] ∧ sufRender rest = [] := by simpa using hdata.symm
        exact hne h2.1
      rw [parsePath, if_neg hnon, hdata]
      have hlen : (k.data ++ sufRender rest).length
          = k.data.length + ((sufRender rest).length + 0) := by
        simp [List.length_append]
      rw [hlen, parsePathAux_key k.data hk ((sufRender rest).length + 0)
        (sufRender rest) [] [], List.nil_append,
        parsePathAux_sufRender rest hrest 0 k.data []]
      have hflush : flushKey k.data = [Seg.key k] := by
        rw [flushKey, if_neg hne, string_mk_data]
      rw [hflush]
      rfl
    | idx i =>
      rw [renderFrom]
      have hseg : renderSeg "" (Seg.idx i) = "" ++ "[" ++ natStr i ++ "]" := by
        rw [renderSeg, pathIdx]
      rw [hseg]
      have hlb : ("").data ++ ("[").data = ['['] := rfl
      have hdata0 : ("" ++ "[" ++ natStr i ++ "]").data
          = '[' :: (natDigits i ++ [']']) := by
        simp [String.data_append]
        rfl
      have hdata : (renderFrom ("" ++ "[" ++ natStr i ++ "]") rest).data
          = sufRender (Seg.idx i :: rest) := by
        rw [renderFrom_data rest _ (by rw [hdata0]; simp), hdata0, sufRender]
        simp
      have hnon : ¬renderFrom ("" ++ "[" ++ natStr i ++ "]") rest = "" := by
        intro h
        rw [h] at hdata
        have : sufRender (Seg.idx i :: rest) = [] := hdata.symm
        rw [sufRender] at this
        simp at this
      rw [parsePath, if_neg hnon, hdata]
      have hlen : (sufRender (Seg.idx i :: rest)).length
          = (sufRender (Seg.idx i :: rest)).length + 0 := by omega
      rw [hlen, parsePathAux_sufRender (Seg.idx i :: rest)
        (by rw [goodSegs, List.all_cons]; simp [hrest]) 0 [] []]
      rfl


/-- C5, counterexample to the claim as stated: for the parsed value
`\x7b"": 1\x7d` the builder emits exactly one node, for the object key `""`
(which contains none of `.`, `[`, `]`), with recorded path `""`; but
parsing that path back yields the empty segment sequence, which
navigates to the root object, not to the node's value `1`. -/
theorem tree_path_roundtrip_counterexample :
    (addNode (.obj [("", .num 1)]) 0 "").map NodeRec.path = [""] ∧
    ("" : String).data.all (fun c => c ≠ '.' && c ≠ '[' && c ≠ ']') = true ∧
    posAnn (.obj [("", .num 1)]) = [(Seg.key "", [Seg.key ""], .num 1)] ∧
    parsePath "" = some [] ∧
    valueAt (.obj [("", .num 1)]) [] = some (.obj [("", .num 1)]) ∧
    valueAt (.obj [("", .num 1)]) [Seg.key ""] = some (.num 1) := by
  decide

/-- C5 (amended: the keys on the node's path must also be non-empty, not
just free of `.`, `[`, `]`): for every well-formed value, the builder
emits exactly one node per reachable object key or array index, in
depth-first order, each carrying the dot-joined/bracketed cumulative
path; and for every reachable position whose keys are non-empty and free
of the separator characters, parsing the node's recorded path string
back yields exactly its segment sequence, which navigates from the root
to the node's value. -/
theorem tree_nodes_complete_paths_navigable
    (v : JSONValue) (t : Seg × List Seg × JSONValue)
    (hwf : wfVal v = true)
    (hmem : t ∈ posAnn v)
    (hgood : goodSegs t.2.1 = true) :
    addNode v 0 "" = (posAnn v).map (mkNode 0 "") ∧
    (mkNode 0 "" t).path = renderFrom "" t.2.1 ∧
    parsePath (renderFrom "" t.2.1) = some t.2.1 ∧
    valueAt v t.2.1 = some t.2.2 := by
  refine ⟨addNode_eq_map v 0 "", ?_, parsePath_renderFrom t.2.1 hgood,
    posAnn_valueAt v hwf t hmem⟩
  obtain ⟨se, segs, u⟩ := t
  rw [mkNode]
  by_cases hc : u.isContainer
  · rw [if_pos hc]
  · rw [if_neg hc]

theorem tree_nodes_complete_paths_navigable_witness :
    addNode (.obj [("a", .obj [("x", .num 1)]), ("b", .obj [("x", .num 2)])]) 0 ""
      = (posAnn (.obj [("a", .obj [("x", .num 1)]),
          ("b", .obj [("x", .num 2)])])).map (mkNode 0 "") ∧
    (mkNode 0 "" (Seg.key "x", [Seg.key "b", Seg.key "x"], JSONValue.num 2)).path
      = renderFrom "" [Seg.key "b", Seg.key "x"] ∧
    parsePath (renderFrom "" [Seg.key "b", Seg.key "x"])
      = some [Seg.key "b", Seg.key "x"] ∧
    valueAt (.obj [("a", .obj [("x", .num 1)]), ("b", .obj [("x", .num 2)])])
      [Seg.key "b", Seg.key "x"] = some (JSONValue.num 2) :=
  tree_nodes_complete_paths_navigable
    (.obj [("a", .obj [("x", .num 1)]), ("b", .obj [("x", .num 2)])])
    (Seg.key "x", [Seg.key "b", Seg.key "x"], JSONValue.num 2)
    (by decide) (by decide) (by decide)

/-- C8: every row the tree builder emits comes from a reachable position
of the value; a container position gets the folder-marker label and the
"key" tag (and its contents are recursed into, giving the remaining
rows), while a leaf (non-container) position is labelled with its key or
bracketed index, the two-space colon separator, and the value's string
rendering, truncated to its first 50 characters followed by `...` when
longer than 50 characters. -/
theorem leaf_folder_labels (v : JSONValue) (level : Nat) (path : String)
    (n : NodeRec) (hn : n ∈ addNode v level path) :
    ∃ t ∈ posAnn v, n = mkNode level path t ∧
      n.path = renderFrom path t.2.1 ∧
      (if t.2.2.isContainer
        then n.label = folderMark ++ segText t.1 ∧ n.tag = "key"
        else n.label = segText t.1 ++ "  :  " ++
          (if (pyStr t.2.2).length > 50
            then String.mk ((pyStr t.2.2).data.take 50) ++ "..."
            else pyStr t.2.2)) := by
  rw [addNode_eq_map] at hn
  obtain ⟨t, ht, rfl⟩ := List.mem_map.mp hn
  obtain ⟨se, segs, u⟩ := t
  refine ⟨(se, segs, u), ht, rfl, ?_, ?_⟩
  · rw [mkNode]
    by_cases hc : u.isContainer
    · rw [if_pos hc]
    · rw [if_neg hc]
  · by_cases hc : u.isContainer
    · rw [if_pos hc, mkNode, if_pos hc]
      exact ⟨rfl, rfl⟩
    · rw [if_neg hc, mkNode, if_neg hc, truncLabel]

theorem leaf_folder_labels_witness :
    ∃ t ∈ posAnn (JSONValue.obj [("a", JSONValue.obj [("x", JSONValue.num 1)])]),
      (⟨folderMark ++ "a", "a", "key"⟩ : NodeRec) = mkNode 0 "" t ∧
      (⟨folderMark ++ "a", "a", "key"⟩ : NodeRec).path = renderFrom "" t.2.1 ∧
      (if t.2.2.isContainer
        then (⟨folderMark ++ "a", "a", "key"⟩ : NodeRec).label
            = folderMark ++ segText t.1 ∧
          (⟨folderMark ++ "a", "a", "key"⟩ : NodeRec).tag = "key"
        else (⟨folderMark ++ "a", "a", "key"⟩ : NodeRec).label
            = segText t.1 ++ "  :  " ++
          (if (pyStr t.2.2).length > 50
            then String.mk ((pyStr t.2.2).data.take 50) ++ "..."
            else pyStr t.2.2)) :=
  leaf_folder_labels (JSONValue.obj [("a", JSONValue.obj [("x", JSONValue.num 1)])])
    0 "" ⟨folderMark ++ "a", "a", "key"⟩ (by decide)


end JSONPro
